import Mathlib

/-!
Shallow embedding of the `nage` animation core: the generic hierarchical state
machine (`include/state.h`) and the attribute-animation blending layer built on
top of it (`include/anim.h`).

Modelling conventions:
* C++ `float` is modelled as `ℚ` (exact arithmetic); `int`/`long` as `ℤ`.
* A nullable `std::function` is an `Option` of a Lean function.
* `std::map` and the value map are association lists `List (String × _)`;
  `std::map` keeps keys sorted, the association list keeps insertion order —
  only per-key contents matter for the properties proved below.
* `std::unordered_set<animation_id>` is a `List String` queried by `contains`.
* Code whose execution is undefined behaviour in C++ (a null-calculator
  dereference) is modelled by returning `none`.
-/

/-- C truncation toward zero (the rounding used by `fmod`). -/
def ratTrunc (q : ℚ) : ℤ := if 0 ≤ q then ⌊q⌋ else ⌈q⌉

/-- C `fmod x y = x - trunc (x / y) * y`. `fmod x 0` is NaN in C; this total
model returns `x` there (`x / 0 = 0` in `ℚ`), a case no theorem below relies
on. -/
def ratFmod (x y : ℚ) : ℚ := x - y * (ratTrunc (x / y) : ℚ)

namespace anim

/-- An easing function (`anim::Easing` is a nullable `std::function`; nullness
is tracked by `Option` at use sites). -/
abbrev Easing := ℚ → ℚ

/-- `anim::Ease`: apply the easing if one is given, else identity. -/
def Ease (d : ℚ) (easer : Option Easing) : ℚ :=
  match easer with
  | some f => f d
  | none => d

/-- `anim::JoinEasing`: compose when both given (`b` after `a`), else whichever
is non-null. -/
def JoinEasing (a b : Option Easing) : Option Easing :=
  match a, b with
  | some f, some g => some (fun d => g (f d))
  | some f, none => some f
  | none, b => b

/-- The registered float calculator's `Lerp` (`calc::Lerp<float>`):
`Adds(a, Adds(b, a, -1), d) = a + (b - a) * d`. -/
def calcLerp (a b d : ℚ) : ℚ := a + (b - a) * d

/-- A keyframe (`anim::Point`), specialized to the float value type. -/
structure Point where
  time : ℚ
  easing : Option Easing
  data : ℚ

/-- A path function (`anim::Path`): keyframes and a time produce a value. The
C++ signature writes through an out-parameter that may be left untouched, so
the model passes the previous out-value as the third argument. -/
abbrev Path := List Point → ℚ → ℚ → ℚ

/-- `anim::PointPath`: always the first point (empty `points` would be
undefined behaviour in the source; the model returns the out-value). -/
def PointPath : Path := fun points _time out =>
  match points with
  | [] => out
  | p :: _ => p.data

/-- The scan of `anim::LinearPath` starting from a previous point: the first
segment whose end time exceeds the query time is interpolated; if none is
found the out-value is left untouched. -/
def linearPathGo : Point → List Point → ℚ → ℚ → ℚ
  | _prev, [], _time, out => out
  | prev, curr :: rest, time, out =>
    if time < curr.time then
      let delta := (time - prev.time) / (curr.time - prev.time)
      let easingDelta := Ease delta prev.easing
      calcLerp prev.data curr.data easingDelta
    else linearPathGo curr rest time out

/-- `anim::LinearPath` (specialized to the float calculator, the one the
blending code runs it with). -/
def LinearPath : Path := fun points time out =>
  match points with
  | [] => out
  | p :: rest => linearPathGo p rest time out

/-- `anim::ParamType`. -/
inductive ParamType where
  | unset
  | set
  | add
  | multiply
deriving DecidableEq

/-- `anim::Param<T>`: a stackable modifier. -/
structure Param (α : Type) where
  value : α
  type : ParamType

/-- `anim::Param::Joins`: fold the parameters left-to-right over the running
default. -/
def Param.Joins {α : Type} [Add α] [Mul α] (defaultValue : α) (params : List (Param α)) : α :=
  params.foldl
    (fun value param =>
      match param.type with
      | .set => param.value
      | .add => value + param.value
      | .multiply => value * param.value
      | .unset => value)
    defaultValue

/-- `anim::Param::Get`. -/
def Param.Get {α : Type} [Add α] [Mul α] (p : Param α) (defaultValue : α) : α :=
  Param.Joins defaultValue [p]

/-- `anim::Param::Join`: unset yields to the other side, otherwise the two are
joined against the default and the result is a `set` parameter. -/
def Param.Join {α : Type} [Add α] [Mul α] (p : Param α) (defaultValue : α) (o : Param α) : Param α :=
  if p.type = .unset then o
  else if o.type = .unset then p
  else ⟨Param.Joins defaultValue [p, o], .set⟩

/-- `anim::AnimationOptions`. The C++ field `repeat` is a Lean keyword and is
named `repeats` here. -/
structure AnimationOptions where
  delay : Param ℚ
  duration : Param ℚ
  sleep : Param ℚ
  repeats : Param ℤ
  scale : Param ℚ
  clipStart : Param ℚ
  clipEnd : Param ℚ
  path : Option Path
  easing : Option Easing

/-- `anim::AnimationOptions::Join`. -/
def AnimationOptions.Join (o n : AnimationOptions) : AnimationOptions where
  delay := o.delay.Join 0 n.delay
  duration := o.duration.Join 0 n.duration
  sleep := o.sleep.Join 0 n.sleep
  repeats := o.repeats.Join 1 n.repeats
  clipStart := o.clipStart.Join 0 n.clipStart
  clipEnd := o.clipEnd.Join 1 n.clipEnd
  scale := o.scale.Join 1 n.scale
  path := match n.path with
    | some p => some p
    | none => o.path
  easing := JoinEasing o.easing n.easing

/-- `anim::TransitionOptions`. -/
structure TransitionOptions where
  time : Param ℚ
  intro : Param ℚ
  outro : Param ℚ
  lookup : Param ℚ
  granularity : Param ℤ
  easing : Option Easing

/-- `anim::TransitionOptions::Join`. -/
def TransitionOptions.Join (o n : TransitionOptions) : TransitionOptions where
  time := o.time.Join 0 n.time
  intro := o.intro.Join 0 n.intro
  outro := o.outro.Join 0 n.outro
  lookup := o.lookup.Join 0 n.lookup
  granularity := o.granularity.Join 0 n.granularity
  easing := JoinEasing o.easing n.easing

/-- `anim::Options`. -/
structure Options where
  transition : TransitionOptions
  animation : AnimationOptions

/-- `anim::Options::Join`. -/
def Options.Join (o n : Options) : Options where
  transition := o.transition.Join n.transition
  animation := o.animation.Join n.animation

/-- An unset `Param ℚ` (`Param()` default constructor). -/
def unsetQ : Param ℚ := ⟨0, .unset⟩

/-- An unset `Param ℤ` (`Param()` default constructor). -/
def unsetZ : Param ℤ := ⟨0, .unset⟩

/-- Default-constructed `AnimationOptions{}`. -/
def AnimationOptions.empty : AnimationOptions :=
  ⟨unsetQ, unsetQ, unsetQ, unsetZ, unsetQ, unsetQ, unsetQ, none, none⟩

/-- Default-constructed `TransitionOptions{}`. -/
def TransitionOptions.empty : TransitionOptions :=
  ⟨unsetQ, unsetQ, unsetQ, unsetQ, unsetZ, none⟩

/-- Default-constructed `Options{}`. -/
def Options.empty : Options := ⟨TransitionOptions.empty, AnimationOptions.empty⟩

instance : Inhabited Options := ⟨Options.empty⟩

/-- `anim::AnimationAttribute`. The C++ field `attribute` is a Lean keyword
and is named `attributeId` here. -/
structure AnimationAttribute where
  attributeId : String
  options : AnimationOptions
  points : List Point

/-- `anim::Animation`. -/
structure Animation where
  name : String
  options : AnimationOptions
  attributes : List AnimationAttribute

/-- `anim::AttributeAnimator`. The C++ `const AnimationAttribute* attribute`
is embedded by value as `attr` (`attribute` and `repeat` are Lean keywords).
The C++ field `offset` is omitted: the source never initializes or reads it. -/
structure AttributeAnimator where
  animation : String
  attr : AnimationAttribute
  options : AnimationOptions
  delay : ℚ
  duration : ℚ
  sleep : ℚ
  repeats : ℤ
  clipStart : ℚ
  clipEnd : ℚ
  scale : ℚ
  time : ℚ
  stopAt : ℚ
  done : Bool
  apply : Bool
  applyDelta : ℚ

/-- `anim::AttributeAnimator::ApplyOptions`: resolve the option parameters
into the plain timing fields. -/
def AttributeAnimator.ApplyOptions (a : AttributeAnimator) : AttributeAnimator :=
  { a with
    delay := a.options.delay.Get 0
    duration := a.options.duration.Get 0
    sleep := a.options.sleep.Get 0
    repeats := a.options.repeats.Get 1
    clipStart := a.options.clipStart.Get 0
    clipEnd := a.options.clipEnd.Get 1
    scale := a.options.scale.Get 1 }

/-- The `anim::AttributeAnimator` constructor: resolve options, then
initialize the playback state. -/
def AttributeAnimator.create (animation : String) (attrData : AnimationAttribute)
    (opts : AnimationOptions) : AttributeAnimator :=
  let base : AttributeAnimator :=
    { animation := animation, attr := attrData, options := opts
      delay := 0, duration := 0, sleep := 0, repeats := 0
      clipStart := 0, clipEnd := 0, scale := 0
      time := 0, stopAt := 0, done := false, apply := false, applyDelta := 0 }
  let r := base.ApplyOptions
  { r with
    time := 0
    done := decide (r.duration = 0 ∨ r.repeats = 0)
    stopAt := -1
    apply := false
    applyDelta := 0 }

/-- `anim::AttributeAnimator::IterationTime`. -/
def AttributeAnimator.IterationTime (a : AttributeAnimator) : ℚ := a.duration + a.sleep

/-- `anim::AttributeAnimator::IntoAnimation`. -/
def AttributeAnimator.IntoAnimation (a : AttributeAnimator) (t : ℚ) : ℚ := t - a.delay

/-- `anim::AttributeAnimator::MaxLifetime`: `-1` is the "infinite" sentinel. -/
def AttributeAnimator.MaxLifetime (a : AttributeAnimator) : ℚ :=
  if a.repeats < 0 then -1
  else a.delay + a.duration + ((a.repeats : ℚ) - 1) * a.IterationTime

/-- `anim::AttributeAnimator::ActualLifetime`: an explicit stop time (if set)
overrides the computed lifetime. -/
def AttributeAnimator.ActualLifetime (a : AttributeAnimator) : ℚ :=
  if 0 ≤ a.stopAt then a.stopAt else a.MaxLifetime

/-- `anim::AttributeAnimator::AnimationTime`. -/
def AttributeAnimator.AnimationTime (a : AttributeAnimator) (t : ℚ) : ℚ :=
  ratFmod (a.IntoAnimation t) a.IterationTime

/-- `anim::AttributeAnimator::Delta`. -/
def AttributeAnimator.Delta (a : AttributeAnimator) (t : ℚ) : ℚ :=
  a.AnimationTime t / a.duration

/-- `anim::AttributeAnimator::ApplyDelta`: `-1` is the "no value" sentinel. -/
def AttributeAnimator.ApplyDelta (a : AttributeAnimator) (t : ℚ) : ℚ :=
  let d := a.Delta t
  if d < 0 ∨ 1 < d then -1
  else Ease (calcLerp a.clipStart a.clipEnd d) a.options.easing

/-- `anim::AttributeAnimator::IsEffective`. -/
def AttributeAnimator.IsEffective (a : AttributeAnimator) : Bool := decide (a.scale ≠ 0)

/-- `anim::AttributeAnimator::IsStopping`. -/
def AttributeAnimator.IsStopping (a : AttributeAnimator) : Bool := decide (a.stopAt ≠ -1)

/-- `anim::AttributeAnimator::Update`. -/
def AttributeAnimator.Update (a : AttributeAnimator) (dt : ℚ) : AttributeAnimator :=
  if a.done then a
  else
    let next := a.time + dt
    let nextApplyDelta := a.ApplyDelta next
    let endTime := a.ActualLifetime
    { a with
      time := next
      apply := decide (nextApplyDelta ≠ -1) || decide (a.applyDelta ≠ -1)
      applyDelta := if nextApplyDelta ≠ -1 then nextApplyDelta else 1
      done := decide (endTime ≠ -1 ∧ endTime ≤ next) }

/-- `anim::AttributeAnimator::StopIn`. -/
def AttributeAnimator.StopIn (a : AttributeAnimator) (dt : ℚ) : AttributeAnimator :=
  { a with stopAt := a.time + dt }

/-- `anim::AttributeAnimator::AddOptions`: join in additional options and
re-resolve. -/
def AttributeAnimator.AddOptions (a : AttributeAnimator) (additional : AnimationOptions) :
    AttributeAnimator :=
  AttributeAnimator.ApplyOptions { a with options := a.options.Join additional }

/-- `anim::Attribute`. -/
structure Attribute where
  animators : List AttributeAnimator
  frame : ℤ
  lastUpdatedFrame : ℤ

/-- The interface of the pluggable numeric calculator (`calc::ValueCalculator`)
restricted to the operations the blending layer uses, specialized to the float
value model. -/
structure Calc where
  create : ℚ
  adds : ℚ → ℚ → ℚ → ℚ
  lerp : ℚ → ℚ → ℚ → ℚ

/-- The registered calculator for the float type. -/
def floatCalc : Calc :=
  { create := 0
    adds := fun a b s => a + b * s
    lerp := calcLerp }

/-- The animator loop inside `anim::Attribute::Update`: advance each animator,
accumulate samples of the appliers with positive scale into the second scratch
value, and prune finished animators. Returns the surviving animators, the two
scratch values and the last-updated frame marker. -/
def attrUpdateGo (c : Calc) (dt : ℚ) (frameNext : ℤ) :
    List AttributeAnimator → ℚ → ℚ → ℤ → List AttributeAnimator × ℚ × ℚ × ℤ
  | [], temp1, temp2, lastU => ([], temp1, temp2, lastU)
  | an :: rest, temp1, temp2, lastU =>
    let an1 := an.Update dt
    let step :=
      if an1.apply then
        if 0 < an1.scale then
          let path := an1.options.path.getD LinearPath
          let an2 : AttributeAnimator := { an1 with options := { an1.options with path := some path } }
          let t1 := path an2.attr.points an2.applyDelta temp1
          (an2, t1, c.adds temp2 t1 an1.scale, frameNext)
        else (an1, temp1, temp2, lastU)
      else (an1, temp1, temp2, lastU)
    let r := attrUpdateGo c dt frameNext rest step.2.1 step.2.2.1 step.2.2.2
    (if step.1.done then r.1 else step.1 :: r.1, r.2)

/-- `anim::Attribute::Update`. `co` is the result of the `calc::For` lookup
for the attribute's value type; when it is null the C++ code calls
`c->Create()` on a null pointer — undefined behaviour, modelled as `none`.
Otherwise the result is the updated attribute and the (possibly overwritten)
backing value. -/
def Attribute.Update (a : Attribute) (co : Option Calc) (dt : ℚ) (value : ℚ) :
    Option (Attribute × ℚ) :=
  match co with
  | none => none
  | some c =>
    let frameNext := a.frame + 1
    let r := attrUpdateGo c dt frameNext a.animators c.create c.create a.lastUpdatedFrame
    some ({ animators := r.1, frame := frameNext, lastUpdatedFrame := r.2.2.2 },
      if r.2.2.2 = frameNext then r.2.2.1 else value)

/-- `anim::Attribute::IsAnimating`. -/
def Attribute.IsAnimating (a : Attribute) (animation : String) : Bool :=
  a.animators.any fun an => !an.done && an.animation == animation

/-- The reverse scan of `anim::Attribute::ApplyOptions`: add the options to
the last not-done animator of the given animation (`rbegin`..`rend`). -/
def applyOptionsLast (animation : String) (weight : AnimationOptions) :
    List AttributeAnimator → List AttributeAnimator × Bool
  | [] => ([], false)
  | an :: rest =>
    let r := applyOptionsLast animation weight rest
    if r.2 then (an :: r.1, true)
    else if !an.done && an.animation == animation then (an.AddOptions weight :: r.1, true)
    else (an :: r.1, false)

/-- `anim::Attribute::ApplyOptions`. -/
def Attribute.ApplyOptions (a : Attribute) (animation : String) (weight : AnimationOptions) :
    Attribute :=
  { a with animators := (applyOptionsLast animation weight a.animators).1 }

/-- `anim::Attribute::StopIn`. -/
def Attribute.StopIn (a : Attribute) (animation : String) (dt : ℚ) : Attribute :=
  { a with animators := a.animators.map fun an =>
      if !an.done && an.animation == animation then an.StopIn dt else an }

/-- Membership test of `anim::Attribute::ForAnimations`: a not-done animator
whose animation is in the outro set. -/
def isForOutro (outro : List String) (an : AttributeAnimator) : Bool :=
  !an.done && outro.contains an.animation

/-- `anim::AttributeSet`, as an association list (`std::map` in the source). -/
structure AttributeSet where
  set : List (String × Attribute)

/-- Association-list insert-or-replace (`map[key] = value`). -/
def setPairs {β : Type} : List (String × β) → String → β → List (String × β)
  | [], k, v => [(k, v)]
  | kv :: rest, k, v => if kv.1 == k then (k, v) :: rest else kv :: setPairs rest k v

/-- `anim::AttributeSet::GetAttribute`. -/
def AttributeSet.GetAttribute (s : AttributeSet) (name : String) : Option Attribute :=
  (s.set.find? fun kv => kv.1 == name).map fun kv => kv.2

/-- `map[key] = value` on an `AttributeSet`. -/
def AttributeSet.SetAttribute (s : AttributeSet) (name : String) (attr : Attribute) :
    AttributeSet :=
  ⟨setPairs s.set name attr⟩

/-- `anim::AttributeSet::IsAnimating`. -/
def AttributeSet.IsAnimating (s : AttributeSet) (animation : String) : Bool :=
  s.set.any fun kv => kv.2.IsAnimating animation

/-- The minimum-delay scan in `anim::AttributeSet::Transition`
(`nextUp[0].delay` refined by the later animators; the empty case is
unreachable, the caller checked non-emptiness). -/
def minDelayOf : List AttributeAnimator → ℚ
  | [] => 0
  | a :: rest => rest.foldl (fun m an => if an.delay < m then an.delay else m) a.delay

/-- The `StopIn(minDelay)` applied by `AttributeSet::Transition` to each
existing outro animator found by `ForAnimations`. -/
def stopIfOutro (outro : List String) (minDelay : ℚ) (an : AttributeAnimator) :
    AttributeAnimator :=
  if isForOutro outro an then an.StopIn minDelay else an

/-- The final pass of `anim::AttributeSet::Transition`: any animator of an
outro animation that is not already scheduled to stop is stopped now. -/
def stopOutroNow (outro : List String) (an : AttributeAnimator) : AttributeAnimator :=
  if isForOutro outro an && !an.IsStopping then an.StopIn 0 else an

/-- The per-attribute merge loop of `anim::AttributeSet::Transition`: skip
empty incoming lists; install wholesale when nothing exists; otherwise stop
existing outro animators at the minimum incoming delay and append the incoming
animators after the existing ones. -/
def transitionGo (outro : List String) : List (String × Attribute) → AttributeSet → AttributeSet
  | [], acc => acc
  | (k, attrIn) :: rest, acc =>
    if attrIn.animators.isEmpty then transitionGo outro rest acc
    else
      match acc.GetAttribute k with
      | none => transitionGo outro rest (acc.SetAttribute k attrIn)
      | some existing =>
        if existing.animators.isEmpty then transitionGo outro rest (acc.SetAttribute k attrIn)
        else
          let stopped :=
            if existing.animators.any (isForOutro outro) then
              let minDelay := minDelayOf attrIn.animators
              existing.animators.map (stopIfOutro outro minDelay)
            else existing.animators
          transitionGo outro rest
            (acc.SetAttribute k { existing with animators := stopped ++ attrIn.animators })

/-- `anim::AttributeSet::Transition`. The transition options parameter is
accepted and unused, exactly as in the source (a TODO there). -/
def AttributeSet.Transition (s incoming : AttributeSet) (_options : TransitionOptions)
    (outro : List String) : AttributeSet :=
  let s1 := transitionGo outro incoming.set s
  ⟨s1.set.map fun kv => (kv.1, { kv.2 with animators := kv.2.animators.map (stopOutroNow outro) })⟩

/-- `anim::AttributeSet::ApplyOptions`. -/
def AttributeSet.ApplyOptions (s : AttributeSet) (animation : String)
    (weight : AnimationOptions) : AttributeSet :=
  ⟨s.set.map fun kv => (kv.1, kv.2.ApplyOptions animation weight)⟩

/-- `anim::AttributeSet::StopIn`. -/
def AttributeSet.StopIn (s : AttributeSet) (animation : String) (dt : ℚ) : AttributeSet :=
  ⟨s.set.map fun kv => (kv.1, kv.2.StopIn animation dt)⟩

/-- The loop of `anim::AttributeSet::Update`: attributes with no entry in the
value map are skipped; a null calculator for an updated attribute propagates
the crash (`none`). -/
def attrSetUpdateGo (co : Option Calc) (dt : ℚ) :
    List (String × Attribute) → List (String × ℚ) →
    Option (List (String × Attribute) × List (String × ℚ))
  | [], values => some ([], values)
  | (k, attr) :: rest, values =>
    match values.find? fun kv => kv.1 == k with
    | none =>
      (attrSetUpdateGo co dt rest values).map fun r => ((k, attr) :: r.1, r.2)
    | some kv =>
      match attr.Update co dt kv.2 with
      | none => none
      | some r =>
        (attrSetUpdateGo co dt rest (setPairs values k r.2)).map fun r2 =>
          ((k, r.1) :: r2.1, r2.2)

/-- `anim::AttributeSet::Update`. -/
def AttributeSet.Update (s : AttributeSet) (co : Option Calc) (dt : ℚ)
    (values : List (String × ℚ)) : Option (AttributeSet × List (String × ℚ)) :=
  (attrSetUpdateGo co dt s.set values).map fun r => (⟨r.1⟩, r.2)

/-- `anim::Animator`: the animated subject. -/
structure Animator where
  attributes : AttributeSet
  values : List (String × ℚ)
  minTotalScale : ℚ
  maxTotalScale : ℚ
  minEffectiveScale : ℚ

/-- `anim::Animator::IsAnimating`. -/
def Animator.IsAnimating (a : Animator) (animation : String) : Bool :=
  a.attributes.IsAnimating animation

/-- `anim::Animator::ApplyOptions`. -/
def Animator.ApplyOptions (a : Animator) (animation : String) (weight : AnimationOptions) :
    Animator :=
  { a with attributes := a.attributes.ApplyOptions animation weight }

/-- `anim::Animator::Update`: `co` is the calculator lookup result for the
attribute value type (all values share the float type in this model). -/
def Animator.Update (a : Animator) (co : Option Calc) (dt : ℚ) : Option Animator :=
  (a.attributes.Update co dt a.values).map fun r => { a with attributes := r.1, values := r.2 }

end anim

namespace state

/-- `state::MachineOptions`. The two priority comparators
(`AppliedPriority`/`ActivePriority`) are functions over `Active` instances;
storing them here would make the instance types non-strictly-positive, and no
property below touches the sorting path, so they are left unmodelled:
`ProcessQueue` below is the behaviour with a null comparator (no reorder). -/
structure MachineOptions where
  AppliedMax : ℤ
  ActiveMax : ℤ
  FullyActive : Bool
  ProcessQueueImmediately : Bool

/-- `state::Transition<T>`, with the identifier type fixed to `String` (the
instantiations in the repository use string ids). `m_end` is named `endId`
(`end` is a Lean keyword); a null condition is `none` and means "always". -/
structure Transition (Input Upd Opt : Type) where
  hasStart : Bool
  start : String
  endId : String
  condition : Option (Input → Upd → Bool)
  live : Bool
  options : Opt

/-- `state::Transition::Eval`: `!m_condition || m_condition(input, update)`. -/
def Transition.Eval {Input Upd Opt : Type} (t : Transition Input Upd Opt)
    (input : Input) (upd : Upd) : Bool :=
  match t.condition with
  | none => true
  | some c => c input upd

mutual
/-- `state::Definition<T>`: a state definition, possibly holding a nested
machine definition. -/
inductive Definition (Input Upd Effect Data Opt : Type) where
  | mk (id : String) (data : Data) (effect : Option (Input → Upd → Effect))
      (fixedEffect : Effect) (effectLive : Bool) (options : Opt)
      (transitions : List (Transition Input Upd Opt))
      (sub : Option (MachineDefinition Input Upd Effect Data Opt))
/-- `state::MachineDefinition<T>`: states, global transitions, initial input
and options. The three hook functions (`m_start`/`m_apply`/`m_done`) take
`Active` instances as arguments and cannot be stored in this inductive
(strict positivity); they are passed to the operations below instead — the
animation layer installs the same three hooks at every nesting level, which
this faithfully reproduces. -/
inductive MachineDefinition (Input Upd Effect Data Opt : Type) where
  | mk (states : List (Definition Input Upd Effect Data Opt))
      (transitions : List (Transition Input Upd Opt))
      (initialInput : Input) (options : MachineOptions)
end

variable {Input Upd Effect Data Opt Subject : Type}

/-- Projection: `Definition::GetID`. -/
def Definition.id : Definition Input Upd Effect Data Opt → String
  | .mk i _ _ _ _ _ _ _ => i

/-- Projection: `Definition::GetData`. -/
def Definition.data : Definition Input Upd Effect Data Opt → Data
  | .mk _ d _ _ _ _ _ _ => d

/-- Projection: the effect function (`m_effect`). -/
def Definition.effect : Definition Input Upd Effect Data Opt → Option (Input → Upd → Effect)
  | .mk _ _ e _ _ _ _ _ => e

/-- Projection: `Definition::GetFixedEffect`. -/
def Definition.fixedEffect : Definition Input Upd Effect Data Opt → Effect
  | .mk _ _ _ f _ _ _ _ => f

/-- Projection: `m_effectLive`. -/
def Definition.effectLive : Definition Input Upd Effect Data Opt → Bool
  | .mk _ _ _ _ l _ _ _ => l

/-- Projection: `Definition::GetOptions`. -/
def Definition.options : Definition Input Upd Effect Data Opt → Opt
  | .mk _ _ _ _ _ o _ _ => o

/-- Projection: `Definition::GetTransitions`. -/
def Definition.transitions :
    Definition Input Upd Effect Data Opt → List (Transition Input Upd Opt)
  | .mk _ _ _ _ _ _ ts _ => ts

/-- Projection: `Definition::GetSub` (null pointer modelled as `none`). -/
def Definition.sub :
    Definition Input Upd Effect Data Opt → Option (MachineDefinition Input Upd Effect Data Opt)
  | .mk _ _ _ _ _ _ _ s => s

/-- `state::Definition::GetEffect`: the effect function if given, else the
fixed effect. -/
def Definition.GetEffect (d : Definition Input Upd Effect Data Opt)
    (input : Input) (upd : Upd) : Effect :=
  match d.effect with
  | some f => f input upd
  | none => d.fixedEffect

/-- `state::Definition::IsEffectLive`: never live without an effect
function. -/
def Definition.IsEffectLive (d : Definition Input Upd Effect Data Opt) : Bool :=
  match d.effect with
  | some _ => d.effectLive
  | none => false

/-- Projection: `MachineDefinition::GetStates`. -/
def MachineDefinition.states :
    MachineDefinition Input Upd Effect Data Opt → List (Definition Input Upd Effect Data Opt)
  | .mk ss _ _ _ => ss

/-- Projection: `MachineDefinition::GetTransitions` (the global ones). -/
def MachineDefinition.transitions :
    MachineDefinition Input Upd Effect Data Opt → List (Transition Input Upd Opt)
  | .mk _ ts _ _ => ts

/-- Projection: `MachineDefinition::GetInitialInput`. -/
def MachineDefinition.initialInput : MachineDefinition Input Upd Effect Data Opt → Input
  | .mk _ _ i _ => i

/-- Projection: `MachineDefinition::GetOptions`. -/
def MachineDefinition.options : MachineDefinition Input Upd Effect Data Opt → MachineOptions
  | .mk _ _ _ o => o

/-- `state::MachineDefinition::GetState`: first state with the given id, or
null. -/
def MachineDefinition.GetState (m : MachineDefinition Input Upd Effect Data Opt)
    (id : String) : Option (Definition Input Upd Effect Data Opt) :=
  m.states.find? fun s => s.id == id

mutual
/-- `state::Machine<T>`: a machine instance. The subject and the shared input
live outside the tree (the source holds a reference and a `shared_ptr` shared
with the root); the operations below thread them explicitly. The
`m_applicable` scratch list only feeds the unmodelled `Apply` entry point and
is omitted. -/
inductive Machine (Input Upd Effect Data Opt : Type) where
  | mk (defn : MachineDefinition Input Upd Effect Data Opt)
      (active : List (Active Input Upd Effect Data Opt))
      (activeQueue : List (Active Input Upd Effect Data Opt))
/-- `state::Active<T>`: an active state instance: its definition, its current
effect and (if the definition has one) a sub-machine instance. -/
inductive Active (Input Upd Effect Data Opt : Type) where
  | mk (defn : Definition Input Upd Effect Data Opt) (effect : Effect)
      (sub : Option (Machine Input Upd Effect Data Opt))
end

/-- Projection: the machine's definition pointer. -/
def Machine.defn :
    Machine Input Upd Effect Data Opt → MachineDefinition Input Upd Effect Data Opt
  | .mk d _ _ => d

/-- Projection: `Machine::GetActive` (the list). -/
def Machine.active :
    Machine Input Upd Effect Data Opt → List (Active Input Upd Effect Data Opt)
  | .mk _ a _ => a

/-- Projection: `Machine::GetActiveQueue`. -/
def Machine.activeQueue :
    Machine Input Upd Effect Data Opt → List (Active Input Upd Effect Data Opt)
  | .mk _ _ q => q

/-- Projection: `Active::GetDefinition`. -/
def Active.defn :
    Active Input Upd Effect Data Opt → Definition Input Upd Effect Data Opt
  | .mk d _ _ => d

/-- Projection: `Active::GetEffect`. -/
def Active.effect : Active Input Upd Effect Data Opt → Effect
  | .mk _ e _ => e

/-- Projection: `Active::GetSub` (`HasSub` is `isSome`). -/
def Active.sub :
    Active Input Upd Effect Data Opt → Option (Machine Input Upd Effect Data Opt)
  | .mk _ _ s => s

/-- The machine-level hook functions. On a `state::MachineDefinition` these
are the stored `m_start` and `m_done` (`m_apply` feeds only the unmodelled
`Machine::Apply`); they are passed explicitly for strict positivity, see
`MachineDefinition`. `start` returns the possibly mutated subject plus its
success flag. -/
structure Hooks (Subject Input Upd Effect Data Opt : Type) where
  start : Subject → Active Input Upd Effect Data Opt → Transition Input Upd Opt →
    Option (Active Input Upd Effect Data Opt) → Subject × Bool
  done : Subject → Active Input Upd Effect Data Opt → Bool

/-- `state::Machine::GetActive(id)` over a given active list: first active
state whose definition has the id. -/
def getActiveIn (l : List (Active Input Upd Effect Data Opt)) (id : String) :
    Option (Active Input Upd Effect Data Opt) :=
  l.find? fun a => a.defn.id == id

mutual
/-- `state::Machine::Transitions`: evaluate a transition list against the
current active list, starting fired states and pushing them onto the queue;
returns the new queue, the threaded subject and the fired count. `fuel`
bounds the recursion into nested machine construction (the C++ recursion is
over the definition tree; every theorem below holds for every fuel and the
witnesses supply enough of it). A transition whose end state is not defined
on the machine would dereference a null `GetState` result in the source —
`AddTransition` rejects such transitions at setup, and the model skips
them. -/
def transFold [Inhabited Opt] (hooks : Hooks Subject Input Upd Effect Data Opt) (input : Input)
    (mdef : MachineDefinition Input Upd Effect Data Opt)
    (activeList : List (Active Input Upd Effect Data Opt)) (upd : Upd)
    (onlyLive : Bool) (outro : Option (Active Input Upd Effect Data Opt)) :
    Nat → List (Transition Input Upd Opt) → List (Active Input Upd Effect Data Opt) →
    Subject → List (Active Input Upd Effect Data Opt) × Subject × Nat
  | _fuel, [], queue, subject => (queue, subject, 0)
  | fuel, t :: rest, queue, subject =>
    if onlyLive && !t.live then
      transFold hooks input mdef activeList upd onlyLive outro fuel rest queue subject
    else if (getActiveIn activeList t.endId).isSome then
      transFold hooks input mdef activeList upd onlyLive outro fuel rest queue subject
    else if t.Eval input upd then
      match mdef.GetState t.endId with
      | none => transFold hooks input mdef activeList upd onlyLive outro fuel rest queue subject
      | some stateDef =>
        let made := mkActive hooks input upd fuel stateDef subject
        let started := hooks.start made.2 made.1 t outro
        if started.2 then
          let r := transFold hooks input mdef activeList upd onlyLive outro fuel rest
            (queue ++ [made.1]) started.1
          (r.1, r.2.1, r.2.2 + 1)
        else
          transFold hooks input mdef activeList upd onlyLive outro fuel rest queue started.1
    else
      transFold hooks input mdef activeList upd onlyLive outro fuel rest queue subject
termination_by fuel ts queue subject => (fuel, 1, ts.length)

/-- The `state::Active` constructor followed by the `state.GetSub()->Init`
call `Machine::Transitions` and `Machine::Init` perform on states with a
sub-machine: compute the effect, build the (fresh, empty) sub-machine and
initialize it. -/
def mkActive [Inhabited Opt] (hooks : Hooks Subject Input Upd Effect Data Opt) (input : Input)
    (upd : Upd) :
    Nat → Definition Input Upd Effect Data Opt → Subject →
    Active Input Upd Effect Data Opt × Subject
  | fuel, stateDef, subject =>
    match stateDef.sub with
    | none => (Active.mk stateDef (stateDef.GetEffect input upd) none, subject)
    | some sd =>
      match fuel with
      | 0 => (Active.mk stateDef (stateDef.GetEffect input upd) (some (Machine.mk sd [] [])),
          subject)
      | fuel' + 1 =>
        let r := machineInit hooks input (Machine.mk sd [] []) upd fuel' subject
        (Active.mk stateDef (stateDef.GetEffect input upd) (some r.1), r.2)
termination_by fuel stateDef subject => (fuel, 0, 0)

/-- The fully-active loop of `state::Machine::Init`: every defined state is
instantiated, started with a condition-free global transition to itself, and
(on start success) queued. -/
def initStatesGo [Inhabited Opt] (hooks : Hooks Subject Input Upd Effect Data Opt)
    (input : Input) (upd : Upd) :
    Nat → List (Definition Input Upd Effect Data Opt) → Subject →
    List (Active Input Upd Effect Data Opt) × Subject
  | _fuel, [], subject => ([], subject)
  | fuel, stateDef :: rest, subject =>
    let made := mkActive hooks input upd fuel stateDef subject
    let trans : Transition Input Upd Opt := ⟨false, "", stateDef.id, none, false, default⟩
    let started := hooks.start made.2 made.1 trans none
    let r := initStatesGo hooks input upd fuel rest started.1
    (if started.2 then made.1 :: r.1 else r.1, r.2)
termination_by fuel l subject => (fuel, 1, l.length)

/-- `state::Machine::Init`: only on an empty machine; fully-active machines
without global transitions enqueue every state, otherwise non-empty global
transitions seed the queue. -/
def machineInit [Inhabited Opt] (hooks : Hooks Subject Input Upd Effect Data Opt)
    (input : Input) :
    Machine Input Upd Effect Data Opt → Upd → Nat → Subject →
    Machine Input Upd Effect Data Opt × Subject
  | m, upd, fuel, subject =>
    if !m.active.isEmpty || !m.activeQueue.isEmpty then (m, subject)
    else if m.defn.options.FullyActive && m.defn.transitions.isEmpty then
      let r := initStatesGo hooks input upd fuel m.defn.states subject
      (Machine.mk m.defn m.active r.1, r.2)
    else if !m.defn.transitions.isEmpty then
      let r := transFold hooks input m.defn m.active upd false none fuel m.defn.transitions
        m.activeQueue subject
      (Machine.mk m.defn m.active r.1, r.2.1)
    else (m, subject)
termination_by m upd fuel subject => (fuel, 2, 0)
end

/-- The unsigned subtraction in `state::Machine::ProcessQueue`:
`options.ActiveMax - m_active.size()` promotes the `int` to `size_t`, so a
negative difference wraps modulo `2^64`. -/
def usub64 (a : ℤ) (b : ℕ) : ℕ := ((a - (b : ℤ)) % (2 ^ 64 : ℤ)).toNat

/-- `state::Machine::ProcessQueue` (with no `ActivePriority` comparator, see
`MachineOptions`): cap the queue to the remaining active space — dropping
everything when no space remains — then append it to the active list and
clear it. -/
def processQueue (m : Machine Input Upd Effect Data Opt) :
    Machine Input Upd Effect Data Opt :=
  if m.activeQueue.isEmpty then m
  else
    let queue1 :=
      if 0 < m.defn.options.ActiveMax then
        let remainingSpace := usub64 m.defn.options.ActiveMax m.active.length
        if m.activeQueue.length ≤ remainingSpace then m.activeQueue
        else if 0 < remainingSpace then m.activeQueue.take remainingSpace
        else []
      else m.activeQueue
    Machine.mk m.defn (m.active ++ queue1) []

mutual
/-- `state::Active::IsDone`: a state with a sub-machine is not done while the
sub-queue is non-empty, and otherwise done only when all sub-states are; a
leaf state asks the machine definition's done hook (`doneHook` is the
`m_done` the source reaches through the `def` parameter it threads down
unchanged). -/
def Active.IsDone (doneHook : Subject → Active Input Upd Effect Data Opt → Bool)
    (subject : Subject) : Active Input Upd Effect Data Opt → Bool
  | .mk d e none => doneHook subject (.mk d e none)
  | .mk _ _ (some (Machine.mk _ act q)) =>
    if !q.isEmpty then false else isDoneList doneHook subject act

/-- The sub-state conjunction inside `state::Active::IsDone`. -/
def isDoneList (doneHook : Subject → Active Input Upd Effect Data Opt → Bool)
    (subject : Subject) : List (Active Input Upd Effect Data Opt) → Bool
  | [] => true
  | a :: rest => Active.IsDone doneHook subject a && isDoneList doneHook subject rest
end

mutual
/-- `state::Active::Iterate` with an always-true visitor, as the list of
bottom (leaf) states it visits: a state without a sub-machine is itself a
leaf, otherwise the leaves of the sub-machine's active states. -/
def Active.leaves : Active Input Upd Effect Data Opt → List (Active Input Upd Effect Data Opt)
  | .mk d e none => [.mk d e none]
  | .mk _ _ (some (Machine.mk _ act _)) => leavesList act

/-- Leaves of a list of active states, in order. -/
def leavesList : List (Active Input Upd Effect Data Opt) → List (Active Input Upd Effect Data Opt)
  | [] => []
  | a :: rest => Active.leaves a ++ leavesList rest
end

mutual
/-- Whether some machine in the tree under this active state has a non-empty
activation queue. -/
def Active.hasQueued : Active Input Upd Effect Data Opt → Bool
  | .mk _ _ none => false
  | .mk _ _ (some (Machine.mk _ act q)) => !q.isEmpty || hasQueuedList act

/-- `Active.hasQueued` over a list of active states. -/
def hasQueuedList : List (Active Input Upd Effect Data Opt) → Bool
  | [] => false
  | a :: rest => Active.hasQueued a || hasQueuedList rest
end

mutual
/-- `state::Machine::Update`: evaluate global transitions (unless fully
active), flush the queue, update the active states, and optionally flush the
queue produced this tick. `fuel` bounds the machine-tree recursion depth as
in `transFold`. -/
def Machine.Update [Inhabited Opt] (hooks : Hooks Subject Input Upd Effect Data Opt)
    (input : Input) :
    Nat → Machine Input Upd Effect Data Opt → Subject → Upd →
    Machine Input Upd Effect Data Opt × Subject
  | fuel, m, subject, upd =>
    let options := m.defn.options
    let g :=
      if !options.FullyActive then
        let hasState := !m.active.isEmpty || !m.activeQueue.isEmpty
        let r := transFold hooks input m.defn m.active upd hasState none fuel
          m.defn.transitions m.activeQueue subject
        (r.1, r.2.1)
      else (m.activeQueue, subject)
    let m1 := processQueue (Machine.mk m.defn m.active g.1)
    let u :=
      if options.FullyActive then
        let r := updLiveGo hooks input fuel m1.active g.2 upd
        (r.1, m1.activeQueue, r.2)
      else updActiveGo hooks input m.defn fuel [] m1.active m1.activeQueue g.2 upd
    let m2 := Machine.mk m.defn u.1 u.2.1
    (if options.ProcessQueueImmediately && !m2.activeQueue.isEmpty then processQueue m2 else m2,
      u.2.2)
termination_by fuel m subject upd => (fuel, 3, 0)

/-- The fully-active branch of `state::Machine::UpdateActive`: just update
every active state in order. -/
def updLiveGo [Inhabited Opt] (hooks : Hooks Subject Input Upd Effect Data Opt)
    (input : Input) :
    Nat → List (Active Input Upd Effect Data Opt) → Subject → Upd →
    List (Active Input Upd Effect Data Opt) × Subject
  | _fuel, [], subject, _upd => ([], subject)
  | fuel, a :: rest, subject, upd =>
    let r1 := Active.UpdateA hooks input fuel a subject upd
    let r2 := updLiveGo hooks input fuel rest r1.2 upd
    (r1.1 :: r2.1, r2.2)
termination_by fuel l subject upd => (fuel, 2, l.length)

/-- The non-fully-active loop of `state::Machine::UpdateActive`: for each
active state compute done via `Active.IsDone`, update it if not done,
evaluate its own transitions (`onlyLive = !done`, the state itself as the
outro), force done when one fired, and drop done states. `kept` is the
already-processed prefix that stays active (the source erases in place, so
the active list seen by `Machine::Transitions` is `kept ++ s1 :: rest`). -/
def updActiveGo [Inhabited Opt] (hooks : Hooks Subject Input Upd Effect Data Opt)
    (input : Input) (mdef : MachineDefinition Input Upd Effect Data Opt) :
    Nat → List (Active Input Upd Effect Data Opt) → List (Active Input Upd Effect Data Opt) →
    List (Active Input Upd Effect Data Opt) → Subject → Upd →
    List (Active Input Upd Effect Data Opt) × List (Active Input Upd Effect Data Opt) × Subject
  | _fuel, kept, [], queue, subject, _upd => (kept, queue, subject)
  | fuel, kept, s :: rest, queue, subject, upd =>
    let sdone := Active.IsDone hooks.done subject s
    let p := if !sdone then Active.UpdateA hooks input fuel s subject upd else (s, subject)
    let r := transFold hooks input mdef (kept ++ p.1 :: rest) upd (!sdone) (some p.1) fuel
      p.1.defn.transitions queue p.2
    if sdone || decide (0 < r.2.2) then
      updActiveGo hooks input mdef fuel kept rest r.1 r.2.1 upd
    else
      updActiveGo hooks input mdef fuel (kept ++ [p.1]) rest r.1 r.2.1 upd
termination_by fuel kept l queue subject upd => (fuel, 2, l.length)

/-- `state::Active::Update`: recurse into the sub-machine if there is one,
else refresh a live effect. -/
def Active.UpdateA [Inhabited Opt] (hooks : Hooks Subject Input Upd Effect Data Opt)
    (input : Input) :
    Nat → Active Input Upd Effect Data Opt → Subject → Upd →
    Active Input Upd Effect Data Opt × Subject
  | _fuel, .mk d e none, subject, upd =>
    if d.IsEffectLive then (.mk d (d.GetEffect input upd) none, subject)
    else (.mk d e none, subject)
  | fuel, .mk d e (some m), subject, upd =>
    match fuel with
    | 0 => (.mk d e (some m), subject)
    | fuel' + 1 =>
      let r := Machine.Update hooks input fuel' m subject upd
      (.mk d e (some r.1), r.2)
termination_by fuel a subject upd => (fuel, 1, 0)
end

/-- `state::Machine::Init` at the driver level (same as `machineInit`; kept
under the `Machine` namespace for discoverability). -/
def Machine.Init [Inhabited Opt] (hooks : Hooks Subject Input Upd Effect Data Opt)
    (input : Input) (m : Machine Input Upd Effect Data Opt) (upd : Upd) (fuel : Nat)
    (subject : Subject) : Machine Input Upd Effect Data Opt × Subject :=
  machineInit hooks input m upd fuel subject

end state

namespace anim

/-- `state::UserState`: a vector of floats indexed by typed properties. -/
abbrev UserState := List ℚ

/-- `state::UserState::Get` (out-of-range access is undefined behaviour on the
`std::vector`; the model returns 0). -/
def UserState.Get (us : UserState) (i : ℕ) : ℚ := us.getD i 0

/-- `anim::Update::DeltaTime`: property index 0. -/
def deltaTimeIndex : ℕ := 0

/-- `anim::StateTypes` instantiation of the generic machine: input and update
are `UserState`, the effect (the state's weight) is `AnimationOptions`, the
state data is an `Animation`, the options are `Options` and the subject is an
`Animator`. -/
abbrev StateA := state.Active UserState UserState AnimationOptions Animation Options

/-- The machine definition type of the `anim` instantiation. -/
abbrev MachineDefinitionA :=
  state.MachineDefinition UserState UserState AnimationOptions Animation Options

/-- The first loop of `anim::Apply`: total of the leaf state scales that
exceed the subject's minimum effective scale (each leaf's weight is
`state.GetWeight()` — the active state's effect — and its scalar is
`weight.scale.Get(1.0f)`). -/
def totalEffectiveScale (minEffectiveScale : ℚ) (leaves : List StateA) : ℚ :=
  leaves.foldl
    (fun total st =>
      let scale := st.effect.scale.Get 1
      if minEffectiveScale < scale then total + scale else total)
    0

/-- The scale modifier computed by `anim::Apply` from the total effective
scale and the subject's configured bounds. -/
def scaleModifier (minTotalScale maxTotalScale total : ℚ) : ℚ :=
  if total = 0 then 1
  else if total < minTotalScale then minTotalScale / total
  else if maxTotalScale < total ∧ maxTotalScale ≠ 0 then maxTotalScale / total
  else 1

/-- The per-leaf weight pushed by the second loop of `anim::Apply`: the scale
is zeroed at or below the minimum effective scale, then multiplied by the
modifier and assigned (`weight.scale = ...` produces a `set` parameter). -/
def appliedWeight (minEffectiveScale modifier : ℚ) (st : StateA) : AnimationOptions :=
  let weight := st.effect
  let scale := weight.scale.Get 1
  let scale1 := if scale ≤ minEffectiveScale then 0 else scale
  { weight with scale := ⟨scale1 * modifier, .set⟩ }

/-- `anim::Apply`, the apply hook the animation layer installs on its machine
definitions: flatten the active states to leaves, compute the scale modifier,
push every leaf's modified weight into the subject via `ApplyOptions`, then
advance the subject by the update's delta time. (The source calls the leaf
weight accessor `GetWeight()`; `state::Active` names it `GetEffect` — the
rename noted in the `state.h` TODOs.) The calculator argument of
`Animator.Update` is the `calc::For` lookup for the float attribute type. -/
def Apply (subject : Animator) (active : List StateA) (upd : UserState) : Option Animator :=
  let leaves := state.leavesList active
  let total := totalEffectiveScale subject.minEffectiveScale leaves
  let modifier := scaleModifier subject.minTotalScale subject.maxTotalScale total
  let subject1 := leaves.foldl
    (fun sub st => sub.ApplyOptions st.defn.data.name
      (appliedWeight subject.minEffectiveScale modifier st))
    subject
  subject1.Update (some floatCalc) (upd.Get deltaTimeIndex)

/-- `anim::IsDone`, the done hook: a leaf state is done when the subject has
no live animator for its animation. -/
def IsDoneHook (subject : Animator) (st : StateA) : Bool :=
  !subject.IsAnimating st.defn.data.name

end anim

namespace anim

/-- A concrete keyframe-less animation attribute used by the concrete
instances below. -/
def attrP : AnimationAttribute := ⟨"position", AnimationOptions.empty, []⟩

/-- Options with duration 1 and repeat 2 (all else unset). -/
def optsDur1Rep2 : AnimationOptions :=
  { AnimationOptions.empty with duration := ⟨1, .set⟩, repeats := ⟨2, .set⟩ }

/-- Options with duration 1 and repeat −1 (all else unset). -/
def optsDur1RepInf : AnimationOptions :=
  { AnimationOptions.empty with duration := ⟨1, .set⟩, repeats := ⟨-1, .set⟩ }

/-- A freshly constructed animator with duration 1, repeat 2, no sleep, no
delay. -/
def animDur1Rep2 : AttributeAnimator := AttributeAnimator.create "walk" attrP optsDur1Rep2

/-- A freshly constructed animator with duration 1 and infinite repeat. -/
def animDur1RepInf : AttributeAnimator := AttributeAnimator.create "walk" attrP optsDur1RepInf

/-- An attribute with no animators. -/
def attrIdle : Attribute := ⟨[], 0, 0⟩

/-- `Attribute::Update` iterated n times (the calculator is registered, so
the `none` branch is unreachable and returns the pair unchanged). -/
def Attribute.UpdateN (c : Calc) (dt : ℚ) : ℕ → Attribute → ℚ → Attribute × ℚ
  | 0, a, v => (a, v)
  | n + 1, a, v =>
    match a.Update (some c) dt v with
    | none => (a, v)
    | some r => Attribute.UpdateN c dt n r.1 r.2

end anim

namespace anim

/-- A state weight of 0.3 (a `set` scale parameter). -/
def weight03 : AnimationOptions := { AnimationOptions.empty with scale := ⟨3/10, .set⟩ }

/-- A minimal named animation. -/
def animationIdle : Animation := ⟨"idle", AnimationOptions.empty, []⟩

/-- A second minimal named animation. -/
def animationWalk : Animation := ⟨"walk", AnimationOptions.empty, []⟩

/-- A leaf state definition for `animationIdle`. -/
def defIdle : state.Definition UserState UserState AnimationOptions Animation Options :=
  .mk "idle" animationIdle none AnimationOptions.empty false Options.empty [] none

/-- A leaf state definition for `animationWalk`. -/
def defWalk : state.Definition UserState UserState AnimationOptions Animation Options :=
  .mk "walk" animationWalk none AnimationOptions.empty false Options.empty [] none

/-- An active leaf state with weight scale 0.3. -/
def leafIdle : StateA := .mk defIdle weight03 none

/-- Another active leaf state with weight scale 0.3. -/
def leafWalk : StateA := .mk defWalk weight03 none

/-- A live animator for animation "A" (existing on the attribute before a
transition): duration 1, infinite repeat, elapsed time 0, no stop
scheduled. -/
def animatorA : AttributeAnimator := AttributeAnimator.create "A" attrP optsDur1RepInf

/-- An incoming animator for animation "B" with delay 0.2. -/
def animatorB : AttributeAnimator :=
  AttributeAnimator.create "B" attrP
    { AnimationOptions.empty with duration := ⟨1, .set⟩, delay := ⟨1/5, .set⟩ }

/-- An attribute set owning only "position", animated by `animatorA`. -/
def setExisting : AttributeSet := ⟨[("position", ⟨[animatorA], 0, 0⟩)]⟩

/-- The incoming attribute set of a transition: "position" animated by
`animatorB`. -/
def setIncoming : AttributeSet := ⟨[("position", ⟨[animatorB], 0, 0⟩)]⟩

end anim

namespace state

/-- The generic machine instantiated at unit types, for concrete instances. -/
abbrev TransU := Transition Unit Unit Unit

/-- Unit-typed state definitions. -/
abbrev DefU := Definition Unit Unit Unit Unit Unit

/-- Unit-typed machine definitions. -/
abbrev MDefU := MachineDefinition Unit Unit Unit Unit Unit

/-- Unit-typed active states. -/
abbrev ActiveU := Active Unit Unit Unit Unit Unit

/-- Unit-typed machines. -/
abbrev MachineU := Machine Unit Unit Unit Unit Unit

/-- Unit-typed hooks. -/
abbrev HooksU := Hooks Unit Unit Unit Unit Unit Unit

/-- A live, condition-free transition from "A" to "B". -/
def tAB : TransU := ⟨true, "A", "B", none, true, ()⟩

/-- A global, condition-free transition to "A". -/
def tToA : TransU := ⟨false, "", "A", none, false, ()⟩

/-- State "B": no transitions, no sub-machine. -/
def defB : DefU := .mk "B" () none () false () [] none

/-- State "A": one live transition to "B". -/
def defA : DefU := .mk "A" () none () false () [tAB] none

/-- A two-state machine definition with no global transitions and default
options. -/
def mdefU : MDefU := .mk [defA, defB] [] () ⟨0, 0, false, false⟩

/-- An empty machine definition. -/
def mdefEmptyU : MDefU := .mk [] [] () ⟨0, 0, false, false⟩

/-- Hooks whose start always succeeds and whose done hook always reports NOT
done. -/
def hooksU : HooksU := ⟨fun s _ _ _ => (s, true), fun _ _ => false⟩

/-- An active instance of state "A". -/
def activeA : ActiveU := .mk defA () none

/-- An active instance of state "B". -/
def activeB : ActiveU := .mk defB () none

/-- An active state whose sub-machine has a queued activation. -/
def activeNested : ActiveU := .mk defA () (some (.mk mdefEmptyU [] [activeB]))

/-- Two levels of nesting: the queued activation sits two machines down. -/
def activeNested2 : ActiveU := .mk defA () (some (.mk mdefEmptyU [activeNested] []))

end state

namespace anim

/-- Claim C6: Param joining is deterministic and applied left-to-right over
the running default — the empty join returns the default, appending one more
parameter post-composes its mode onto the joined prefix (`set` replaces,
`add` adds, `multiply` multiplies, `unset` is ignored), and joining
`[set 2, add 3, multiply 2]` against default 1 yields 10. -/
theorem claim_C6_param_join_left_to_right :
    (∀ d : ℚ, Param.Joins d ([] : List (Param ℚ)) = d)
    ∧ (∀ (d : ℚ) (ps : List (Param ℚ)) (p : Param ℚ),
        Param.Joins d (ps ++ [p]) =
          match p.type with
          | .set => p.value
          | .add => Param.Joins d ps + p.value
          | .multiply => Param.Joins d ps * p.value
          | .unset => Param.Joins d ps)
    ∧ Param.Joins (1 : ℚ) [⟨2, .set⟩, ⟨3, .add⟩, ⟨2, .multiply⟩] = 10 := by
  refine ⟨fun d => rfl, fun d ps p => ?_, by norm_num [Param.Joins]⟩
  simp only [Param.Joins, List.foldl_append, List.foldl_cons, List.foldl_nil]

/-- Claim C7 (code behaviour at the failing input): when no calculator is
registered for the attribute's value type (`calc::For` returns null,
modelled `none`), `Attribute::Update` does not skip blending gracefully — it
calls `c->Create()` through the null pointer, which is a crash (`none`),
contradicting the spec's graceful-skip requirement. -/
theorem claim_C7_missing_calculator_is_crash :
    ∀ (a : Attribute) (dt value : ℚ), a.Update none dt value = none :=
  fun _ _ _ => rfl

/-- Claim C2: with no explicit stop (`stopAt = -1`) the effective lifetime of
an animator is `delay + duration + (repeat − 1) · (duration + sleep)`
whenever `repeat` is nonnegative, `Update` marks the animator done exactly
when its elapsed time reaches that lifetime (stated for any lifetime other
than the `-1` infinity sentinel, which nonnegative timing parameters with
positive repeat never produce), and with negative repeat (`repeat = −1`) it
is never marked done by lifetime alone. -/
theorem claim_C2_animator_lifetime :
    (∀ a : AttributeAnimator, 0 ≤ a.repeats →
      a.MaxLifetime = a.delay + a.duration + ((a.repeats : ℚ) - 1) * (a.duration + a.sleep))
    ∧ (∀ (a : AttributeAnimator) (dt : ℚ),
        a.done = false → a.stopAt = -1 → a.MaxLifetime ≠ -1 →
        ((a.Update dt).done = true ↔ a.MaxLifetime ≤ a.time + dt))
    ∧ (∀ (a : AttributeAnimator) (dt : ℚ),
        a.done = false → a.stopAt = -1 → a.repeats < 0 → (a.Update dt).done = false) := by
  refine ⟨?_, ?_, ?_⟩
  · intro a h
    rw [AttributeAnimator.MaxLifetime, if_neg (by omega), AttributeAnimator.IterationTime]
  · intro a dt hdone hstop hml
    rw [AttributeAnimator.Update, if_neg (by rw [hdone]; exact Bool.false_ne_true)]
    have hal : a.ActualLifetime = a.MaxLifetime := by
      rw [AttributeAnimator.ActualLifetime, if_neg (by rw [hstop]; norm_num)]
    simp only [hal, decide_eq_true_eq]
    constructor
    · rintro ⟨-, h⟩; exact h
    · intro h; exact ⟨hml, h⟩
  · intro a dt hdone hstop hrep
    rw [AttributeAnimator.Update, if_neg (by rw [hdone]; exact Bool.false_ne_true)]
    have hal : a.ActualLifetime = -1 := by
      rw [AttributeAnimator.ActualLifetime, if_neg (by rw [hstop]; norm_num),
        AttributeAnimator.MaxLifetime, if_pos hrep]
    simp [hal]

/-- Witness for C2: the animator with duration 1, repeat 2, sleep 0, delay 0
has lifetime 2, is done after an update reaching elapsed time 2, is not done
at elapsed time 3/2, and the infinite-repeat animator is not done even after
100 seconds. -/
theorem claim_C2_animator_lifetime_witness :
    animDur1Rep2.MaxLifetime = 2
    ∧ (animDur1Rep2.Update 2).done = true
    ∧ (animDur1Rep2.Update (3/2)).done = false
    ∧ (animDur1RepInf.Update 100).done = false := by
  obtain ⟨h1, h2, h3⟩ := claim_C2_animator_lifetime
  have hd : animDur1Rep2.done = false := by
    norm_num [animDur1Rep2, AttributeAnimator.create, AttributeAnimator.ApplyOptions,
      optsDur1Rep2, AnimationOptions.empty, unsetQ, unsetZ, Param.Get, Param.Joins]
  have hs : animDur1Rep2.stopAt = -1 := rfl
  have hml : animDur1Rep2.MaxLifetime = 2 := by
    norm_num [animDur1Rep2, AttributeAnimator.MaxLifetime, AttributeAnimator.IterationTime,
      AttributeAnimator.create, AttributeAnimator.ApplyOptions, optsDur1Rep2,
      AnimationOptions.empty, unsetQ, unsetZ, Param.Get, Param.Joins]
  have ht : animDur1Rep2.time = 0 := rfl
  refine ⟨hml, ?_, ?_, ?_⟩
  · rw [h2 animDur1Rep2 2 hd hs (by rw [hml]; norm_num), hml, ht]; norm_num
  · rw [Bool.eq_false_iff]
    intro hcon
    have := (h2 animDur1Rep2 (3/2) hd hs (by rw [hml]; norm_num)).1 hcon
    rw [hml, ht] at this; norm_num at this
  · refine h3 animDur1RepInf 100 ?_ rfl ?_
    · norm_num [animDur1RepInf, AttributeAnimator.create, AttributeAnimator.ApplyOptions,
        optsDur1RepInf, AnimationOptions.empty, unsetQ, unsetZ, Param.Get, Param.Joins]
    · norm_num [animDur1RepInf, AttributeAnimator.create, AttributeAnimator.ApplyOptions,
        optsDur1RepInf, AnimationOptions.empty, unsetQ, unsetZ, Param.Get, Param.Joins]

end anim

namespace anim

/-- One no-animator update: the value is kept, only the frame advances. -/
theorem attribute_update_empty (c : Calc) (dt v : ℚ) (a : Attribute)
    (ha : a.animators = []) (hl : a.lastUpdatedFrame ≤ a.frame) :
    a.Update (some c) dt v = some ({ a with frame := a.frame + 1 }, v) := by
  simp only [Attribute.Update, ha, attrUpdateGo]
  rw [if_neg (by omega)]

/-- Iterated no-animator updates: the value is kept, the animator list stays
empty, the frame advances by the call count. -/
theorem attribute_updateN_empty (c : Calc) (dt : ℚ) :
    ∀ (n : ℕ) (a : Attribute) (v : ℚ), a.animators = [] → a.lastUpdatedFrame ≤ a.frame →
      (Attribute.UpdateN c dt n a v).2 = v
      ∧ (Attribute.UpdateN c dt n a v).1.animators = []
      ∧ (Attribute.UpdateN c dt n a v).1.frame = a.frame + n := by
  intro n
  induction n with
  | zero => intro a v ha _; exact ⟨rfl, ha, by simp [Attribute.UpdateN]⟩
  | succ n ih =>
    intro a v ha hl
    rw [Attribute.UpdateN, attribute_update_empty c dt v a ha hl]
    have h2 := ih { a with frame := a.frame + 1 } v ha
      (by change a.lastUpdatedFrame ≤ a.frame + 1; omega)
    refine ⟨h2.1, h2.2.1, ?_⟩
    rw [h2.2.2]
    change a.frame + 1 + (n : ℤ) = a.frame + (n + 1 : ℕ)
    push_cast
    ring

/-- Claim C9: an attribute with zero animators leaves its backing value
unchanged under `Update` — a single call only advances the frame counter, and
any number of repeated calls keeps the value and the empty animator list,
advancing the frame by the call count. (The `lastUpdatedFrame ≤ frame`
hypothesis is the state invariant: both counters start at 0 and
`lastUpdatedFrame` is only ever set to the then-current frame.) -/
theorem claim_C9_no_animators_keeps_value :
    (∀ (c : Calc) (dt v : ℚ) (a : Attribute),
      a.animators = [] → a.lastUpdatedFrame ≤ a.frame →
      a.Update (some c) dt v = some ({ a with frame := a.frame + 1 }, v))
    ∧ (∀ (c : Calc) (dt v : ℚ) (a : Attribute) (n : ℕ),
        a.animators = [] → a.lastUpdatedFrame ≤ a.frame →
        (Attribute.UpdateN c dt n a v).2 = v
        ∧ (Attribute.UpdateN c dt n a v).1.animators = []
        ∧ (Attribute.UpdateN c dt n a v).1.frame = a.frame + n) :=
  ⟨attribute_update_empty, fun c dt v a n ha hl => attribute_updateN_empty c dt n a v ha hl⟩

/-- Witness for C9: updating the empty "position" attribute three times with
the float calculator keeps the value 5 and an empty animator list, advancing
the frame to 3. -/
theorem claim_C9_no_animators_keeps_value_witness :
    (Attribute.UpdateN floatCalc 1 3 attrIdle 5).2 = 5
    ∧ (Attribute.UpdateN floatCalc 1 3 attrIdle 5).1.animators = []
    ∧ (Attribute.UpdateN floatCalc 1 3 attrIdle 5).1.frame = 3 := by
  have h := claim_C9_no_animators_keeps_value.2 floatCalc 1 5 attrIdle 3 rfl
    (by norm_num [attrIdle])
  exact ⟨h.1, h.2.1, h.2.2⟩

/-- A done animator that is not applying is skipped by the update loop: it
contributes nothing to the accumulators and is pruned from the list. -/
theorem attrUpdateGo_skips_done (c : Calc) (dt : ℚ) (f : ℤ) (an : AttributeAnimator)
    (h1 : an.done = true) (h2 : an.apply = false) :
    ∀ (pre post : List AttributeAnimator) (t1 t2 : ℚ) (lu : ℤ),
      attrUpdateGo c dt f (pre ++ an :: post) t1 t2 lu
        = attrUpdateGo c dt f (pre ++ post) t1 t2 lu := by
  intro pre
  induction pre with
  | nil =>
    intro post t1 t2 lu
    simp only [List.nil_append, attrUpdateGo]
    have hu : an.Update dt = an := by rw [AttributeAnimator.Update, if_pos h1]
    rw [hu]
    simp [h1, h2]
  | cons p rest ih =>
    intro post t1 t2 lu
    simp only [List.cons_append, attrUpdateGo, List.append_eq]
    rw [ih]

/-- Claim C10: an animator whose resolved options give duration 0 or repeat 0
is constructed with its done flag already set, and the first attribute update
that visits it neither takes a contribution from it nor keeps it: updating an
attribute containing it equals updating the attribute without it. -/
theorem claim_C10_degenerate_animator_inert :
    (∀ (animation : String) (attrData : AnimationAttribute) (opts : AnimationOptions),
      opts.duration.Get 0 = 0 ∨ opts.repeats.Get 1 = 0 →
      (AttributeAnimator.create animation attrData opts).done = true)
    ∧ (∀ (animation : String) (attrData : AnimationAttribute) (opts : AnimationOptions)
        (c : Calc) (dt v : ℚ) (pre post : List AttributeAnimator) (frame lastU : ℤ),
        opts.duration.Get 0 = 0 ∨ opts.repeats.Get 1 = 0 →
        Attribute.Update
            ⟨pre ++ AttributeAnimator.create animation attrData opts :: post, frame, lastU⟩
            (some c) dt v
          = Attribute.Update ⟨pre ++ post, frame, lastU⟩ (some c) dt v) := by
  have hdone : ∀ (animation : String) (attrData : AnimationAttribute)
      (opts : AnimationOptions),
      opts.duration.Get 0 = 0 ∨ opts.repeats.Get 1 = 0 →
      (AttributeAnimator.create animation attrData opts).done = true := by
    intro animation attrData opts h
    simp only [AttributeAnimator.create, AttributeAnimator.ApplyOptions, decide_eq_true_eq]
    exact h
  refine ⟨hdone, ?_⟩
  intro animation attrData opts c dt v pre post frame lastU h
  simp only [Attribute.Update]
  rw [attrUpdateGo_skips_done c dt (frame + 1) _ (hdone animation attrData opts h) rfl]

/-- Witness for C10: the animator built from all-unset options (resolved
duration 0) is born done, and updating an attribute holding only it is the
same as updating the empty attribute: the animator is pruned and the value 5
is untouched. -/
theorem claim_C10_degenerate_animator_inert_witness :
    (AttributeAnimator.create "walk" attrP AnimationOptions.empty).done = true
    ∧ Attribute.Update
        ⟨[AttributeAnimator.create "walk" attrP AnimationOptions.empty], 0, 0⟩
        (some floatCalc) 1 5
      = some (⟨[], 1, 0⟩, 5) := by
  constructor
  · exact claim_C10_degenerate_animator_inert.1 "walk" attrP AnimationOptions.empty
      (Or.inl (by norm_num [AnimationOptions.empty, unsetQ, Param.Get, Param.Joins]))
  · have h := claim_C10_degenerate_animator_inert.2 "walk" attrP AnimationOptions.empty
      floatCalc 1 5 [] [] 0 0
      (Or.inl (by norm_num [AnimationOptions.empty, unsetQ, Param.Get, Param.Joins]))
    simp only [List.nil_append] at h
    rw [h]
    simp only [Attribute.Update, attrUpdateGo]
    norm_num

end anim

namespace anim

/-- Lookup after insert at the same key. -/
theorem find_setPairs_self {β : Type} (l : List (String × β)) (k : String) (v : β) :
    (setPairs l k v).find? (fun kv => kv.1 == k) = some (k, v) := by
  induction l with
  | nil => simp [setPairs]
  | cons kv rest ih =>
    by_cases h : kv.1 = k
    · simp [setPairs, h]
    · simp [setPairs, h, ih]

/-- Lookup after insert at a different key. -/
theorem find_setPairs_other {β : Type} (l : List (String × β)) (k k' : String) (v : β)
    (h : k' ≠ k) :
    (setPairs l k v).find? (fun kv => kv.1 == k') = l.find? (fun kv => kv.1 == k') := by
  induction l with
  | nil => simp [setPairs, Ne.symm h]
  | cons kv rest ih =>
    by_cases hk : kv.1 = k
    · simp [setPairs, hk, Ne.symm h]
    · by_cases hk' : kv.1 = k'
      · simp [setPairs, hk, hk', h]
      · simp [setPairs, hk, hk', ih]

/-- `GetAttribute` after `SetAttribute` at the same key. -/
theorem getAttribute_setAttribute_self (s : AttributeSet) (k : String) (v : Attribute) :
    (s.SetAttribute k v).GetAttribute k = some v := by
  simp [AttributeSet.GetAttribute, AttributeSet.SetAttribute, find_setPairs_self]

/-- `GetAttribute` after `SetAttribute` at a different key. -/
theorem getAttribute_setAttribute_other (s : AttributeSet) (k k' : String) (v : Attribute)
    (h : k' ≠ k) : (s.SetAttribute k v).GetAttribute k' = s.GetAttribute k' := by
  simp [AttributeSet.GetAttribute, AttributeSet.SetAttribute, find_setPairs_other _ _ _ _ h]

/-- Membership in an insert-or-replace result. -/
theorem mem_setPairs {β : Type} (l : List (String × β)) (k : String) (v : β) :
    ∀ kv ∈ setPairs l k v, kv = (k, v) ∨ kv ∈ l := by
  induction l with
  | nil => intro kv h; simp [setPairs] at h; exact Or.inl h
  | cons kv0 rest ih =>
    intro kv h
    simp only [setPairs] at h
    split at h
    · rcases List.mem_cons.mp h with h | h
      · exact Or.inl h
      · exact Or.inr (List.mem_cons_of_mem _ h)
    · rcases List.mem_cons.mp h with h | h
      · exact Or.inr (h ▸ List.mem_cons_self _ _)
      · rcases ih kv h with h1 | h1
        · exact Or.inl h1
        · exact Or.inr (List.mem_cons_of_mem _ h1)

/-- The merge loop is a left fold: processing an appended list processes the
first part and then the second. -/
theorem transitionGo_append (outro : List String) (l1 l2 : List (String × Attribute)) :
    ∀ acc : AttributeSet,
      transitionGo outro (l1 ++ l2) acc = transitionGo outro l2 (transitionGo outro l1 acc) := by
  induction l1 with
  | nil => intro acc; rfl
  | cons kv l1 ih =>
    intro acc
    obtain ⟨k', attrIn⟩ := kv
    by_cases he : attrIn.animators.isEmpty = true
    · simp only [List.cons_append, transitionGo, if_pos he]
      exact ih acc
    · cases hg : acc.GetAttribute k' with
      | none =>
        simp only [List.cons_append, transitionGo, if_neg he, hg]
        exact ih _
      | some existing =>
        by_cases he2 : existing.animators.isEmpty = true
        · simp only [List.cons_append, transitionGo, if_neg he, hg, if_pos he2]
          exact ih _
        · simp only [List.cons_append, transitionGo, if_neg he, hg, if_neg he2]
          exact ih _

/-- Entries whose keys differ from `k` do not affect the lookup at `k`. -/
theorem transitionGo_get_other (outro : List String) (inc : List (String × Attribute))
    (k : String) (hk : ∀ kv ∈ inc, kv.1 ≠ k) :
    ∀ acc : AttributeSet,
      (transitionGo outro inc acc).GetAttribute k = acc.GetAttribute k := by
  induction inc with
  | nil => intro acc; rfl
  | cons kv inc ih =>
    intro acc
    obtain ⟨k', attrIn⟩ := kv
    have hk' : k ≠ k' := fun h => hk (k', attrIn) (List.mem_cons_self _ _) h.symm
    have ihrest := ih fun kv h => hk kv (List.mem_cons_of_mem _ h)
    by_cases he : attrIn.animators.isEmpty = true
    · simp only [transitionGo, if_pos he]
      exact ihrest acc
    · cases hg : acc.GetAttribute k' with
      | none =>
        simp only [transitionGo, if_neg he, hg]
        rw [ihrest _, getAttribute_setAttribute_other _ _ _ _ hk']
      | some existing =>
        by_cases he2 : existing.animators.isEmpty = true
        · simp only [transitionGo, if_neg he, hg, if_pos he2]
          rw [ihrest _, getAttribute_setAttribute_other _ _ _ _ hk']
        · simp only [transitionGo, if_neg he, hg, if_neg he2]
          rw [ihrest _, getAttribute_setAttribute_other _ _ _ _ hk']

/-- `stopIfOutro` never changes the elapsed time. -/
theorem stopIfOutro_time (outro : List String) (md : ℚ) (an : AttributeAnimator) :
    (stopIfOutro outro md an).time = an.time := by
  rw [stopIfOutro]; split <;> rfl

/-- `stopOutroNow` never changes the elapsed time. -/
theorem stopOutroNow_time (outro : List String) (an : AttributeAnimator) :
    (stopOutroNow outro an).time = an.time := by
  rw [stopOutroNow]; split <;> rfl

/-- The merge loop preserves "all elapsed times are nonnegative". -/
theorem transitionGo_time_nonneg (outro : List String) (inc : List (String × Attribute))
    (hinc : ∀ kv ∈ inc, ∀ an ∈ kv.2.animators, 0 ≤ an.time) :
    ∀ acc : AttributeSet, (∀ kv ∈ acc.set, ∀ an ∈ kv.2.animators, 0 ≤ an.time) →
      ∀ kv ∈ (transitionGo outro inc acc).set, ∀ an ∈ kv.2.animators, 0 ≤ an.time := by
  induction inc with
  | nil => intro acc hacc; exact hacc
  | cons kv0 inc ih =>
    intro acc hacc
    obtain ⟨k', attrIn⟩ := kv0
    have hattrIn : ∀ an ∈ attrIn.animators, 0 ≤ an.time :=
      hinc (k', attrIn) (List.mem_cons_self _ _)
    have hrest : ∀ kv ∈ inc, ∀ an ∈ kv.2.animators, 0 ≤ an.time :=
      fun kv h => hinc kv (List.mem_cons_of_mem _ h)
    have hset : ∀ v : Attribute, (∀ an ∈ v.animators, 0 ≤ an.time) →
        ∀ kv ∈ (acc.SetAttribute k' v).set, ∀ an ∈ kv.2.animators, 0 ≤ an.time := by
      intro v hv kv hkv
      rcases mem_setPairs _ _ _ kv hkv with h | h
      · rw [h]; exact hv
      · exact hacc kv h
    by_cases he : attrIn.animators.isEmpty = true
    · simp only [transitionGo, if_pos he]
      exact ih hrest acc hacc
    · cases hg : acc.GetAttribute k' with
      | none =>
        simp only [transitionGo, if_neg he, hg]
        exact ih hrest _ (hset attrIn hattrIn)
      | some existing =>
        have hexmem : ∀ an ∈ existing.animators, 0 ≤ an.time := by
          simp only [AttributeSet.GetAttribute, Option.map_eq_some'] at hg
          obtain ⟨kv1, hfind, hkv1⟩ := hg
          have hmem := List.mem_of_find?_eq_some hfind
          intro an han
          exact hacc kv1 hmem an (by rw [hkv1]; exact han)
        by_cases he2 : existing.animators.isEmpty = true
        · simp only [transitionGo, if_neg he, hg, if_pos he2]
          exact ih hrest _ (hset attrIn hattrIn)
        · simp only [transitionGo, if_neg he, hg, if_neg he2]
          refine ih hrest _ (hset _ ?_)
          intro an han
          simp only [List.mem_append] at han
          rcases han with han | han
          · split at han
            · simp only [List.mem_map] at han
              obtain ⟨an0, han0, rfl⟩ := han
              rw [stopIfOutro_time]
              exact hexmem an0 han0
            · exact hexmem an han
          · exact hattrIn an han

end anim

namespace anim

/-- Lookup commutes with a value-wise map of the set. -/
theorem getAttribute_mapSet (l : List (String × Attribute)) (g : Attribute → Attribute)
    (k : String) :
    AttributeSet.GetAttribute ⟨l.map fun kv => (kv.1, g kv.2)⟩ k
      = (AttributeSet.GetAttribute ⟨l⟩ k).map g := by
  induction l with
  | nil => rfl
  | cons kv rest ih =>
    by_cases h : kv.1 = k
    · simp [AttributeSet.GetAttribute, h]
    · simp only [AttributeSet.GetAttribute, List.map_cons] at ih ⊢
      rw [List.find?_cons_of_neg _ (by simpa using h), List.find?_cons_of_neg _ (by simpa using h)]
      exact ih

/-- `stopOutroNow` never changes the done flag. -/
theorem stopOutroNow_done (outro : List String) (an : AttributeAnimator) :
    (stopOutroNow outro an).done = an.done := by
  rw [stopOutroNow]; split <;> rfl

/-- `stopOutroNow` never changes the animation name. -/
theorem stopOutroNow_animation (outro : List String) (an : AttributeAnimator) :
    (stopOutroNow outro an).animation = an.animation := by
  rw [stopOutroNow]; split <;> rfl

/-- An animator stopped at a nonnegative offset stays stopped through the
final pass of the merge. -/
theorem stopOutroNow_stopIfOutro (outro : List String) (md : ℚ) (an : AttributeAnimator)
    (ht : 0 ≤ an.time) (hm : 0 ≤ md) :
    stopOutroNow outro (stopIfOutro outro md an) = stopIfOutro outro md an := by
  rw [stopIfOutro]
  split
  · have hne : an.time + md ≠ -1 := by intro h; linarith
    simp [stopOutroNow, AttributeAnimator.IsStopping, AttributeAnimator.StopIn, hne]
  · rename_i hfo
    rw [Bool.not_eq_true] at hfo
    simp [stopOutroNow, hfo]

/-- The fold of the minimum-delay scan: the result is below the seed and
every scanned delay, and is the seed or one of the delays. -/
theorem minDelay_foldl_spec (l : List AttributeAnimator) :
    ∀ m0 : ℚ,
      l.foldl (fun m an => if an.delay < m then an.delay else m) m0 ≤ m0
      ∧ (∀ an ∈ l, l.foldl (fun m an => if an.delay < m then an.delay else m) m0 ≤ an.delay)
      ∧ (l.foldl (fun m an => if an.delay < m then an.delay else m) m0 = m0
          ∨ ∃ an ∈ l, l.foldl (fun m an => if an.delay < m then an.delay else m) m0 = an.delay) := by
  induction l with
  | nil => intro m0; exact ⟨le_refl _, by simp, Or.inl rfl⟩
  | cons a rest ih =>
    intro m0
    simp only [List.foldl_cons]
    have hstep : (if a.delay < m0 then a.delay else m0) ≤ m0
        ∧ (if a.delay < m0 then a.delay else m0) ≤ a.delay
        ∧ ((if a.delay < m0 then a.delay else m0) = a.delay
            ∨ (if a.delay < m0 then a.delay else m0) = m0) := by
      split
      · exact ⟨le_of_lt (by assumption), le_refl _, Or.inl rfl⟩
      · exact ⟨le_refl _, le_of_not_lt (by assumption), Or.inr rfl⟩
    obtain ⟨ih1, ih2, ih3⟩ := ih (if a.delay < m0 then a.delay else m0)
    refine ⟨le_trans ih1 hstep.1, ?_, ?_⟩
    · intro an han
      rcases List.mem_cons.mp han with h | h
      · rw [h]; exact le_trans ih1 hstep.2.1
      · exact ih2 an h
    · rcases ih3 with h | ⟨an, han, h⟩
      · rcases hstep.2.2 with h2 | h2
        · exact Or.inr ⟨a, List.mem_cons_self _ _, by rw [h, h2]⟩
        · exact Or.inl (by rw [h, h2])
      · exact Or.inr ⟨an, List.mem_cons_of_mem _ han, h⟩

/-- `minDelayOf` of a non-empty list is the minimum of its delays. -/
theorem minDelayOf_spec (l : List AttributeAnimator) (h : l ≠ []) :
    (∀ an ∈ l, minDelayOf l ≤ an.delay) ∧ ∃ an ∈ l, minDelayOf l = an.delay := by
  match l, h with
  | a :: rest, _ =>
    obtain ⟨h1, h2, h3⟩ := minDelay_foldl_spec rest a.delay
    refine ⟨?_, ?_⟩
    · intro an han
      rcases List.mem_cons.mp han with h | h
      · rw [h, minDelayOf]; exact h1
      · rw [minDelayOf]; exact h2 an h
    · rcases h3 with h | ⟨an, han, h⟩
      · exact ⟨a, List.mem_cons_self _ _, by rw [minDelayOf]; exact h⟩
      · exact ⟨an, List.mem_cons_of_mem _ han, by rw [minDelayOf]; exact h⟩

end anim

namespace anim

/-- One merge step of `AttributeSet::Transition` on an attribute with live
outro animators: they are stopped at the minimum incoming delay and the
incoming animators are appended. -/
theorem transitionGo_single_merge (outro : List String) (k : String) (attrIn : Attribute)
    (acc : AttributeSet) (ex : Attribute)
    (hina : attrIn.animators ≠ [])
    (hget : acc.GetAttribute k = some ex)
    (hexN : ex.animators ≠ [])
    (hany : ex.animators.any (isForOutro outro) = true) :
    transitionGo outro [(k, attrIn)] acc
      = acc.SetAttribute k
          { ex with animators :=
              ex.animators.map (stopIfOutro outro (minDelayOf attrIn.animators))
                ++ attrIn.animators } := by
  have he : attrIn.animators.isEmpty = false := by
    cases h' : attrIn.animators with
    | nil => exact absurd h' hina
    | cons a t => rfl
  have he2 : ex.animators.isEmpty = false := by
    cases h' : ex.animators with
    | nil => exact absurd h' hexN
    | cons a t => rfl
  simp [transitionGo, he, hget, he2, hany]

/-- Claim C3: in `AttributeSet::Transition`, when the incoming attribute has
existing animators and some of them belong to outro animations, every such
outro animator is scheduled to stop exactly at the minimum delay among the
incoming animators of that attribute, the incoming animators are appended
after the existing ones, the scheduled delay really is the minimum of the
incoming delays, and afterwards every live animator of an outro animation
anywhere in the set is scheduled to stop. (Elapsed times and delays are
nonnegative in any reachable state: time starts at 0 and grows by the frame
delta, delays are resolved from nonnegative option parameters.) -/
theorem claim_C3_outro_crossfade_scheduling
    (s inc : AttributeSet) (topts : TransitionOptions) (outro : List String)
    (k : String) (attrIn ex : Attribute)
    (hnodup : (inc.set.map Prod.fst).Nodup)
    (hmem : (k, attrIn) ∈ inc.set)
    (hinaN : attrIn.animators ≠ [])
    (hex : s.GetAttribute k = some ex)
    (hexN : ex.animators ≠ [])
    (hany : ex.animators.any (isForOutro outro) = true)
    (hstime : ∀ kv ∈ s.set, ∀ an ∈ kv.2.animators, 0 ≤ an.time)
    (hitime : ∀ kv ∈ inc.set, ∀ an ∈ kv.2.animators, 0 ≤ an.time)
    (hidelay : ∀ an ∈ attrIn.animators, 0 ≤ an.delay) :
    ((s.Transition inc topts outro).GetAttribute k =
      some { ex with animators :=
        ex.animators.map (stopIfOutro outro (minDelayOf attrIn.animators))
          ++ attrIn.animators.map (stopOutroNow outro) })
    ∧ (∀ an ∈ attrIn.animators, minDelayOf attrIn.animators ≤ an.delay)
    ∧ (∃ an ∈ attrIn.animators, minDelayOf attrIn.animators = an.delay)
    ∧ (∀ kv ∈ (s.Transition inc topts outro).set, ∀ an ∈ kv.2.animators,
        an.done = false → outro.contains an.animation = true → an.IsStopping = true) := by
  obtain ⟨hmin, hminmem⟩ := minDelayOf_spec attrIn.animators hinaN
  have hmd0 : 0 ≤ minDelayOf attrIn.animators := by
    obtain ⟨an, han, h⟩ := hminmem
    rw [h]
    exact hidelay an han
  have hextime : ∀ an ∈ ex.animators, 0 ≤ an.time := by
    have hex' := hex
    simp only [AttributeSet.GetAttribute, Option.map_eq_some'] at hex'
    obtain ⟨kv1, hfind, hkv1⟩ := hex'
    intro an han
    exact hstime kv1 (List.mem_of_find?_eq_some hfind) an (by rw [hkv1]; exact han)
  obtain ⟨pre, post, heq⟩ := List.append_of_mem hmem
  have hkeys : ((pre.map Prod.fst) ++ k :: (post.map Prod.fst)).Nodup := by
    rw [heq] at hnodup
    simpa using hnodup
  rw [List.nodup_append] at hkeys
  have hpre : ∀ kv ∈ pre, kv.1 ≠ k := by
    intro kv h hcon
    have hdisj := hkeys.2.2
    exact hdisj (by rw [← hcon]; exact List.mem_map_of_mem _ h) (List.mem_cons_self _ _)
  have hpost : ∀ kv ∈ post, kv.1 ≠ k := by
    intro kv h hcon
    have := (List.nodup_cons.mp hkeys.2.1).1
    exact this (by rw [← hcon]; exact List.mem_map_of_mem _ h)
  -- first loop result at k
  have hs1 : (transitionGo outro inc.set s).GetAttribute k
      = some { ex with animators :=
          ex.animators.map (stopIfOutro outro (minDelayOf attrIn.animators))
            ++ attrIn.animators } := by
    rw [heq]
    have hsplit : pre ++ (k, attrIn) :: post = (pre ++ [(k, attrIn)]) ++ post := by simp
    rw [hsplit, transitionGo_append, transitionGo_append,
      transitionGo_get_other outro post k hpost,
      transitionGo_single_merge outro k attrIn (transitionGo outro pre s) ex hinaN
        (by rw [transitionGo_get_other outro pre k hpre]; exact hex) hexN hany,
      getAttribute_setAttribute_self]
  -- times in the first-loop result are nonnegative
  have hs1time : ∀ kv ∈ (transitionGo outro inc.set s).set, ∀ an ∈ kv.2.animators,
      0 ≤ an.time := transitionGo_time_nonneg outro inc.set hitime s hstime
  refine ⟨?_, hmin, hminmem, ?_⟩
  · show (AttributeSet.GetAttribute ⟨(transitionGo outro inc.set s).set.map fun kv =>
      (kv.1, { kv.2 with animators := kv.2.animators.map (stopOutroNow outro) })⟩ k) = _
    rw [getAttribute_mapSet ((transitionGo outro inc.set s).set)
      (fun attr => { attr with animators := attr.animators.map (stopOutroNow outro) }) k]
    rw [hs1]
    have hcollapse : List.map (stopOutroNow outro)
        (List.map (stopIfOutro outro (minDelayOf attrIn.animators)) ex.animators)
        = List.map (stopIfOutro outro (minDelayOf attrIn.animators)) ex.animators := by
      rw [List.map_map]
      refine List.map_congr_left fun an han => ?_
      exact stopOutroNow_stopIfOutro outro _ an (hextime an han) hmd0
    simp only [Option.map_some', List.map_append, hcollapse]
  · intro kv hkv an han hdone hcont
    simp only [AttributeSet.Transition, List.mem_map] at hkv
    obtain ⟨kv0, hkv0, rfl⟩ := hkv
    simp only [List.mem_map] at han
    obtain ⟨an0, han0, rfl⟩ := han
    have h0time : 0 ≤ an0.time := hs1time kv0 hkv0 an0 han0
    rw [stopOutroNow_done] at hdone
    rw [stopOutroNow_animation] at hcont
    by_cases hstop : an0.IsStopping = true
    · rw [stopOutroNow, if_neg (by simp [hstop])]
      exact hstop
    · have hstopf : an0.IsStopping = false := by simpa using hstop
      have hfo : isForOutro outro an0 = true := by
        rw [isForOutro, hdone]
        simpa using hcont
      rw [stopOutroNow, if_pos (by rw [hfo, hstopf]; rfl)]
      have hne : an0.time ≠ -1 := by
        intro h
        rw [h] at h0time
        norm_num at h0time
      simp [AttributeAnimator.StopIn, AttributeAnimator.IsStopping, hne]

end anim

namespace anim

/-- Witness for C3: transitioning from state A (animating "position") to
state B (incoming delay 0.2) with A in the outro set leaves "position" with
A's animator scheduled to stop at exactly 0.2 and B's animator appended after
it. -/
theorem claim_C3_outro_crossfade_scheduling_witness :
    (setExisting.Transition setIncoming TransitionOptions.empty ["A"]).GetAttribute "position"
      = some ⟨[{ animatorA with stopAt := 1/5 }, animatorB], 0, 0⟩ := by
  have hdoneA : animatorA.done = false := by
    norm_num [animatorA, AttributeAnimator.create, AttributeAnimator.ApplyOptions,
      optsDur1RepInf, AnimationOptions.empty, unsetQ, unsetZ, Param.Get, Param.Joins]
  have hdoneB : animatorB.done = false := by
    norm_num [animatorB, AttributeAnimator.create, AttributeAnimator.ApplyOptions,
      AnimationOptions.empty, unsetQ, unsetZ, Param.Get, Param.Joins]
  have hanimA : animatorA.animation = "A" := rfl
  have hanimB : animatorB.animation = "B" := rfl
  have htimeA : animatorA.time = 0 := rfl
  have htimeB : animatorB.time = 0 := rfl
  have hdelayB : animatorB.delay = 1/5 := by
    norm_num [animatorB, AttributeAnimator.create, AttributeAnimator.ApplyOptions,
      AnimationOptions.empty, unsetQ, unsetZ, Param.Get, Param.Joins]
  have hfoA : isForOutro ["A"] animatorA = true := by
    rw [isForOutro, hdoneA, hanimA]
    rfl
  have h := claim_C3_outro_crossfade_scheduling setExisting setIncoming
    TransitionOptions.empty ["A"] "position" ⟨[animatorB], 0, 0⟩ ⟨[animatorA], 0, 0⟩
    (by simp [setIncoming])
    (by simp [setIncoming])
    (by simp)
    (by rfl)
    (by simp)
    (by simp [hfoA])
    (by intro kv hkv an han
        simp only [setExisting, List.mem_singleton] at hkv
        rw [hkv] at han
        simp only [List.mem_singleton] at han
        rw [han, htimeA])
    (by intro kv hkv an han
        simp only [setIncoming, List.mem_singleton] at hkv
        rw [hkv] at han
        simp only [List.mem_singleton] at han
        rw [han, htimeB])
    (by intro an han
        simp only [List.mem_singleton] at han
        rw [han, hdelayB]
        norm_num)
  rw [h.1]
  have hmd : minDelayOf [animatorB] = 1/5 := by rw [minDelayOf, List.foldl_nil, hdelayB]
  have hA : stopIfOutro ["A"] (minDelayOf [animatorB]) animatorA
      = { animatorA with stopAt := 1/5 } := by
    have hsum : animatorA.time + minDelayOf [animatorB] = 1/5 := by
      rw [htimeA, hmd]
      norm_num
    rw [stopIfOutro, if_pos hfoA, AttributeAnimator.StopIn, hsum]
  have hB : stopOutroNow ["A"] animatorB = animatorB := by
    rw [stopOutroNow, if_neg]
    rw [isForOutro, hanimB]
    simp
  simp [hA, hB]

end anim

namespace state

variable {Input Upd Effect Data Opt Subject : Type}

/-- A list with a queued descendant contains a state with a queued
descendant. -/
theorem hasQueuedList_exists (l : List (Active Input Upd Effect Data Opt)) :
    hasQueuedList l = true → ∃ a ∈ l, Active.hasQueued a = true := by
  induction l with
  | nil => intro h; simp [hasQueuedList] at h
  | cons a rest ih =>
    intro h
    simp only [hasQueuedList, Bool.or_eq_true] at h
    rcases h with h | h
    · exact ⟨a, List.mem_cons_self _ _, h⟩
    · obtain ⟨a', ha', h'⟩ := ih h
      exact ⟨a', List.mem_cons_of_mem _ ha', h'⟩

/-- A sub-state that is not done makes the whole conjunction false. -/
theorem isDoneList_eq_false (doneHook : Subject → Active Input Upd Effect Data Opt → Bool)
    (subject : Subject) (l : List (Active Input Upd Effect Data Opt))
    (a : Active Input Upd Effect Data Opt) (ha : a ∈ l)
    (h : Active.IsDone doneHook subject a = false) :
    isDoneList doneHook subject l = false := by
  induction l with
  | nil => cases ha
  | cons b rest ih =>
    rcases List.mem_cons.mp ha with hb | hb
    · rw [← hb]
      simp [isDoneList, h]
    · simp [isDoneList, ih hb]

/-- Claim C5: an active state over a sub-machine whose tree holds any queued
activation — at any nesting depth — is not done, no matter what the done hook
reports for leaf states. -/
theorem claim_C5_subqueue_blocks_done :
    ∀ (doneHook : Subject → Active Input Upd Effect Data Opt → Bool) (subject : Subject)
      (a : Active Input Upd Effect Data Opt),
      a.hasQueued = true → Active.IsDone doneHook subject a = false := by
  intro dh subj
  suffices main : ∀ (n : ℕ) (a : Active Input Upd Effect Data Opt), sizeOf a ≤ n →
      a.hasQueued = true → Active.IsDone dh subj a = false by
    intro a h
    exact main (sizeOf a) a (le_refl _) h
  intro n
  induction n with
  | zero =>
    intro a hle _
    cases a with
    | mk d e s => simp at hle
  | succ n ih =>
    intro a hle h
    cases a with
    | mk d e s =>
      cases s with
      | none => simp [Active.hasQueued] at h
      | some m =>
        cases m with
        | mk md act q =>
          simp only [Active.hasQueued, Bool.or_eq_true] at h
          cases hq : q.isEmpty with
          | false =>
            simp [Active.IsDone, hq]
          | true =>
            rcases h with h | h
            · rw [hq] at h
              simp at h
            · simp only [Active.IsDone, hq, Bool.not_true, Bool.false_eq_true, if_false]
              obtain ⟨a', ha', hq'⟩ := hasQueuedList_exists act h
              refine isDoneList_eq_false dh subj act a' ha' (ih a' ?_ hq')
              have h1 := List.sizeOf_lt_of_mem ha'
              simp at hle
              omega

/-- Witness for C5: with a done hook that reports every leaf done, the state
whose sub-sub-machine has a queued activation is still not done. -/
theorem claim_C5_subqueue_blocks_done_witness :
    Active.IsDone (fun (_ : Unit) (_ : ActiveU) => true) () activeNested2 = false := by
  refine claim_C5_subqueue_blocks_done _ () activeNested2 ?_
  simp [activeNested2, activeNested, Active.hasQueued, hasQueuedList]

end state

namespace state

variable {Input Upd Effect Data Opt Subject : Type}

/-- The transition loop only appends to the queue it is building: its
decisions, the fired count and the subject threading do not read the queue. -/
theorem transFold_queue [Inhabited Opt] (hooks : Hooks Subject Input Upd Effect Data Opt)
    (input : Input) (mdef : MachineDefinition Input Upd Effect Data Opt)
    (activeList : List (Active Input Upd Effect Data Opt)) (upd : Upd)
    (onlyLive : Bool) (outro : Option (Active Input Upd Effect Data Opt)) (fuel : Nat) :
    ∀ (ts : List (Transition Input Upd Opt)) (queue : List (Active Input Upd Effect Data Opt))
      (subject : Subject),
      transFold hooks input mdef activeList upd onlyLive outro fuel ts queue subject
        = (queue ++ (transFold hooks input mdef activeList upd onlyLive outro fuel ts [] subject).1,
           (transFold hooks input mdef activeList upd onlyLive outro fuel ts [] subject).2.1,
           (transFold hooks input mdef activeList upd onlyLive outro fuel ts [] subject).2.2) := by
  intro ts
  induction ts with
  | nil => intro queue subject; simp [transFold]
  | cons t rest ih =>
    intro queue subject
    by_cases h1 : (onlyLive && !t.live) = true
    · simp only [transFold, if_pos h1]
      exact ih queue subject
    · by_cases h2 : (getActiveIn activeList t.endId).isSome = true
      · simp only [transFold, if_neg h1, if_pos h2]
        exact ih queue subject
      · by_cases h3 : t.Eval input upd = true
        · cases hgs : mdef.GetState t.endId with
          | none =>
            simp only [transFold, if_neg h1, if_neg h2, if_pos h3, hgs]
            exact ih queue subject
          | some stateDef =>
            simp only [transFold, if_neg h1, if_neg h2, if_pos h3, hgs]
            by_cases h4 : (hooks.start (mkActive hooks input upd fuel stateDef subject).2
                (mkActive hooks input upd fuel stateDef subject).1 t outro).2 = true
            · simp only [if_pos h4]
              rw [ih (queue ++ [(mkActive hooks input upd fuel stateDef subject).1]),
                ih ([] ++ [(mkActive hooks input upd fuel stateDef subject).1])]
              simp [List.append_assoc]
            · simp only [if_neg h4]
              exact ih queue _
        · simp only [transFold, if_neg h1, if_neg h2, if_neg h3]
          exact ih queue subject

/-- Claim C8: a transition whose end state is already active is skipped — it
is not evaluated, fires nothing, changes nothing and adds nothing to the
count, exactly as if it were absent from the list; and the skip check
consults only the active list, never the queue being built: the queue only
accumulates by appending, with decisions, subject and count independent of
its contents. -/
theorem claim_C8_already_active_transition_skipped [Inhabited Opt] :
    (∀ (hooks : Hooks Subject Input Upd Effect Data Opt) (input : Input)
      (mdef : MachineDefinition Input Upd Effect Data Opt)
      (activeList : List (Active Input Upd Effect Data Opt)) (upd : Upd)
      (onlyLive : Bool) (outro : Option (Active Input Upd Effect Data Opt)) (fuel : Nat)
      (t : Transition Input Upd Opt) (ts : List (Transition Input Upd Opt))
      (queue : List (Active Input Upd Effect Data Opt)) (subject : Subject),
      (getActiveIn activeList t.endId).isSome = true →
      transFold hooks input mdef activeList upd onlyLive outro fuel (t :: ts) queue subject
        = transFold hooks input mdef activeList upd onlyLive outro fuel ts queue subject)
    ∧ (∀ (hooks : Hooks Subject Input Upd Effect Data Opt) (input : Input)
        (mdef : MachineDefinition Input Upd Effect Data Opt)
        (activeList : List (Active Input Upd Effect Data Opt)) (upd : Upd)
        (onlyLive : Bool) (outro : Option (Active Input Upd Effect Data Opt)) (fuel : Nat)
        (ts : List (Transition Input Upd Opt))
        (queue : List (Active Input Upd Effect Data Opt)) (subject : Subject),
        transFold hooks input mdef activeList upd onlyLive outro fuel ts queue subject
          = (queue
              ++ (transFold hooks input mdef activeList upd onlyLive outro fuel ts [] subject).1,
             (transFold hooks input mdef activeList upd onlyLive outro fuel ts [] subject).2.1,
             (transFold hooks input mdef activeList upd onlyLive outro fuel ts [] subject).2.2)) := by
  constructor
  · intro hooks input mdef activeList upd onlyLive outro fuel t ts queue subject h2
    by_cases h1 : (onlyLive && !t.live) = true
    · simp only [transFold, if_pos h1]
    · simp only [transFold, if_neg h1, if_pos h2]
  · intro hooks input mdef activeList upd onlyLive outro fuel ts queue subject
    exact transFold_queue hooks input mdef activeList upd onlyLive outro fuel ts queue subject

/-- Witness for C8: a queued-up machine with "A" active skips the global
transition into "A": the call returns the untouched queue, subject and a
zero fired count. -/
theorem claim_C8_already_active_transition_skipped_witness :
    transFold hooksU () mdefU [activeA] () false none 1 [tToA] [activeB] ()
      = ([activeB], (), 0) := by
  rw [claim_C8_already_active_transition_skipped.1 hooksU () mdefU [activeA] () false none 1
    tToA [] [activeB] () (by rfl)]
  simp [transFold]

end state

namespace state

variable {Input Upd Effect Data Opt Subject : Type}

/-- Claim C4: in the non-fully-active update loop, a state at least one of
whose own transitions fired this tick is dropped from the active list —
processing continues on the remaining states without it — no matter what the
done hook reported (`Active.IsDone` is left completely unconstrained here, so
this covers the "done hook said not done" case the source forces). -/
theorem claim_C4_fired_transition_forces_removal [Inhabited Opt] :
    ∀ (hooks : Hooks Subject Input Upd Effect Data Opt) (input : Input)
      (mdef : MachineDefinition Input Upd Effect Data Opt) (fuel : Nat)
      (kept rest queue : List (Active Input Upd Effect Data Opt))
      (subject : Subject) (upd : Upd) (s : Active Input Upd Effect Data Opt),
      mdef.options.FullyActive = false →
      0 < (transFold hooks input mdef
            (kept ++ (if !Active.IsDone hooks.done subject s then
                Active.UpdateA hooks input fuel s subject upd else (s, subject)).1 :: rest)
            upd (!Active.IsDone hooks.done subject s)
            (some (if !Active.IsDone hooks.done subject s then
                Active.UpdateA hooks input fuel s subject upd else (s, subject)).1)
            fuel
            (if !Active.IsDone hooks.done subject s then
                Active.UpdateA hooks input fuel s subject upd else (s, subject)).1.defn.transitions
            queue
            (if !Active.IsDone hooks.done subject s then
                Active.UpdateA hooks input fuel s subject upd else (s, subject)).2).2.2 →
      updActiveGo hooks input mdef fuel kept (s :: rest) queue subject upd
        = updActiveGo hooks input mdef fuel kept rest
            (transFold hooks input mdef
              (kept ++ (if !Active.IsDone hooks.done subject s then
                  Active.UpdateA hooks input fuel s subject upd else (s, subject)).1 :: rest)
              upd (!Active.IsDone hooks.done subject s)
              (some (if !Active.IsDone hooks.done subject s then
                  Active.UpdateA hooks input fuel s subject upd else (s, subject)).1)
              fuel
              (if !Active.IsDone hooks.done subject s then
                  Active.UpdateA hooks input fuel s subject upd else (s, subject)).1.defn.transitions
              queue
              (if !Active.IsDone hooks.done subject s then
                  Active.UpdateA hooks input fuel s subject upd else (s, subject)).2).1
            (transFold hooks input mdef
              (kept ++ (if !Active.IsDone hooks.done subject s then
                  Active.UpdateA hooks input fuel s subject upd else (s, subject)).1 :: rest)
              upd (!Active.IsDone hooks.done subject s)
              (some (if !Active.IsDone hooks.done subject s then
                  Active.UpdateA hooks input fuel s subject upd else (s, subject)).1)
              fuel
              (if !Active.IsDone hooks.done subject s then
                  Active.UpdateA hooks input fuel s subject upd else (s, subject)).1.defn.transitions
              queue
              (if !Active.IsDone hooks.done subject s then
                  Active.UpdateA hooks input fuel s subject upd else (s, subject)).2).2.1
            upd := by
  intro hooks input mdef fuel kept rest queue subject upd s _hfa hn
  simp only [updActiveGo]
  rw [if_pos]
  rw [Bool.or_eq_true, decide_eq_true_eq]
  exact Or.inr hn

/-- Witness for C4: state "A" is active, its done hook reports it NOT done,
and its live transition to "B" fires; the update loop drops "A" (the
resulting active list is empty) and "B" sits in the queue. -/
theorem claim_C4_fired_transition_forces_removal_witness :
    updActiveGo hooksU () mdefU 1 [] [activeA] [] () () = ([], [activeB], ()) := by
  have e1 : Active.IsDone hooksU.done () activeA = false := by
    simp [activeA, Active.IsDone, hooksU]
  have e2 : Active.UpdateA hooksU () 1 activeA () () = (activeA, ()) := by
    simp [activeA, Active.UpdateA, defA, Definition.IsEffectLive, Definition.effect]
  have e3 : transFold hooksU () mdefU [activeA] () true (some activeA) 1 [tAB] [] ()
      = ([activeB], (), 1) := by
    simp [transFold, tAB, getActiveIn, activeA, activeB, defA, defB, mdefU,
      MachineDefinition.GetState, MachineDefinition.states, Definition.id,
      Transition.Eval, mkActive, Definition.sub, Definition.GetEffect, Definition.effect,
      Definition.fixedEffect, hooksU, Active.defn]
  have h := claim_C4_fired_transition_forces_removal hooksU () mdefU 1 [] [] [] () () activeA
    rfl
  simp only [e1, Bool.not_false, if_pos, e2, List.nil_append] at h
  have htr : activeA.defn.transitions = [tAB] := rfl
  rw [htr, e3] at h
  have h2 := h (by norm_num)
  rw [h2]
  simp [updActiveGo]

end state

namespace anim

/-- When every leaf scale clears the threshold, the total effective scale is
the plain sum of the leaf scales. -/
theorem totalEffectiveScale_eq_sum (minEff : ℚ) (ls : List StateA)
    (h : ∀ st ∈ ls, minEff < st.effect.scale.Get 1) :
    totalEffectiveScale minEff ls = (ls.map fun st => st.effect.scale.Get 1).sum := by
  have main : ∀ (l : List StateA), (∀ st ∈ l, minEff < st.effect.scale.Get 1) → ∀ acc : ℚ,
      l.foldl (fun total st =>
        let scale := st.effect.scale.Get 1
        if minEff < scale then total + scale else total) acc
      = acc + (l.map fun st => st.effect.scale.Get 1).sum := by
    intro l
    induction l with
    | nil => intro _ acc; simp
    | cons st rest ih =>
      intro hl acc
      simp only [List.foldl_cons, List.map_cons, List.sum_cons]
      rw [if_pos (hl st (List.mem_cons_self _ _)),
        ih (fun st' h' => hl st' (List.mem_cons_of_mem _ h')) ]
      ring
  rw [totalEffectiveScale, main ls h 0, zero_add]

/-- The scale pushed by `appliedWeight` is the thresholded scale times the
modifier (the assignment produces a `set` parameter, so `Get` returns its
value). -/
theorem appliedWeight_scale (minEff modifier : ℚ) (st : StateA) :
    (appliedWeight minEff modifier st).scale.Get 1
      = (if st.effect.scale.Get 1 ≤ minEff then 0 else st.effect.scale.Get 1) * modifier := rfl

/-- Distribute a common factor out of a mapped sum. -/
theorem sum_map_mul (m : ℚ) (f : StateA → ℚ) (ls : List StateA) :
    (ls.map fun st => f st * m).sum = (ls.map f).sum * m := by
  induction ls with
  | nil => simp
  | cons st rest ih => simp [ih, add_mul]

/-- Claim C1: the apply hook's scale modifier is 1 on a zero total,
`minTotalScale/total` below the configured minimum, `maxTotalScale/total`
above a nonzero configured maximum and 1 otherwise; consequently, when every
active leaf scale clears the minimum effective threshold and their sum is
nonzero but below `minTotalScale`, the post-modifier scales sum to exactly
`minTotalScale` — with `minTotalScale = 1` and two leaves of scale 0.3 the
total is 0.6 and the applied scales sum to 1. -/
theorem claim_C1_apply_weight_normalization :
    (∀ minTotal maxTotal total : ℚ,
      scaleModifier minTotal maxTotal total =
        if total = 0 then 1
        else if total < minTotal then minTotal / total
        else if maxTotal ≠ 0 ∧ maxTotal < total then maxTotal / total
        else 1)
    ∧ (∀ (minEff minTotal maxTotal : ℚ) (ls : List StateA),
        (∀ st ∈ ls, minEff < st.effect.scale.Get 1) →
        totalEffectiveScale minEff ls ≠ 0 →
        totalEffectiveScale minEff ls < minTotal →
        (ls.map fun st =>
          (appliedWeight minEff
            (scaleModifier minTotal maxTotal (totalEffectiveScale minEff ls)) st).scale.Get 1).sum
          = minTotal)
    ∧ totalEffectiveScale 0 [leafIdle, leafWalk] = 3/5
    ∧ ((appliedWeight 0 (scaleModifier 1 0 (3/5)) leafIdle).scale.Get 1
        + (appliedWeight 0 (scaleModifier 1 0 (3/5)) leafWalk).scale.Get 1) = 1 := by
  have hconc : totalEffectiveScale 0 [leafIdle, leafWalk] = 3/5 := by
    norm_num [totalEffectiveScale, leafIdle, leafWalk, weight03, state.Active.effect,
      Param.Get, Param.Joins]
  refine ⟨?_, ?_, hconc, ?_⟩
  · intro minTotal maxTotal total
    rw [scaleModifier]
    by_cases h0 : total = 0
    · rw [if_pos h0, if_pos h0]
    · rw [if_neg h0, if_neg h0]
      by_cases h1 : total < minTotal
      · rw [if_pos h1, if_pos h1]
      · rw [if_neg h1, if_neg h1]
        by_cases h2 : maxTotal < total ∧ maxTotal ≠ 0
        · rw [if_pos h2, if_pos ⟨h2.2, h2.1⟩]
        · rw [if_neg h2, if_neg (fun hcon => h2 ⟨hcon.2, hcon.1⟩)]
  · intro minEff minTotal maxTotal ls hall hne hlt
    have hmod : scaleModifier minTotal maxTotal (totalEffectiveScale minEff ls)
        = minTotal / totalEffectiveScale minEff ls := by
      rw [scaleModifier, if_neg hne, if_pos hlt]
    have hmap : (ls.map fun st =>
        (appliedWeight minEff
          (scaleModifier minTotal maxTotal (totalEffectiveScale minEff ls)) st).scale.Get 1)
        = ls.map fun st => (st.effect.scale.Get 1)
            * (minTotal / totalEffectiveScale minEff ls) := by
      refine List.map_congr_left fun st hst => ?_
      rw [appliedWeight_scale, if_neg (not_le.mpr (hall st hst)), hmod]
    rw [hmap, sum_map_mul, ← totalEffectiveScale_eq_sum minEff ls hall, mul_comm,
      div_mul_cancel₀ _ hne]
  · norm_num [appliedWeight, leafIdle, leafWalk, weight03, state.Active.effect,
      scaleModifier, Param.Get, Param.Joins]

/-- Witness for C1: with `minTotalScale = 1`, `maxTotalScale = 0`, threshold
0 and the two 0.3-scale leaves (total 0.6), the applied post-modifier scales
sum to exactly 1. -/
theorem claim_C1_apply_weight_normalization_witness :
    ([leafIdle, leafWalk].map fun st =>
      (appliedWeight 0 (scaleModifier 1 0 (totalEffectiveScale 0 [leafIdle, leafWalk])) st
        ).scale.Get 1).sum = 1 := by
  obtain ⟨-, h2, h3, -⟩ := claim_C1_apply_weight_normalization
  refine h2 0 1 0 [leafIdle, leafWalk] ?_ ?_ ?_
  · intro st hst
    rcases List.mem_cons.mp hst with h | h
    · rw [h]
      norm_num [leafIdle, weight03, state.Active.effect, Param.Get, Param.Joins]
    · rcases List.mem_cons.mp h with h | h
      · rw [h]
        norm_num [leafWalk, weight03, state.Active.effect, Param.Get, Param.Joins]
      · cases h
  · rw [h3]; norm_num
  · rw [h3]; norm_num

end anim
